import Mathlib

/-!
# Verification of the Huffman / LZ77 compression core (`src/main.go`)

Shallow embedding conventions:
* a Go `string` is modelled as the sequence of runes it ranges over, i.e. `List Char`;
* a Go `byte` is modelled as `Nat` (only equality and the zero value are used);
* Go `map` values built by insertion are modelled as association lists in insertion
  order, where a later insertion of the same key overwrites an earlier one, so a
  lookup returns the *last* matching entry; `BuildFrequencyTable` iterates a Go map
  whose iteration order is unspecified — it is modelled in first-occurrence order
  (all properties proved about it are order-invariant);
* `unicode.IsUpper` / `IsLower` / `ToUpper` / `ToLower` are modelled by
  `goIsUpper` / `goIsLower` / `goToUpper` / `goToLower`, faithful to Go's simple
  case tables at every code point these theorems evaluate them at: the whole
  ASCII range, the two marker symbols, and the non-ASCII uppercase letters
  U+0130, U+212A and U+1D400 used by the counterexamples;
* the `container/heap` package functions (`Init`, `Push`, `Pop` and the internal
  `up` / `down` sift routines) are translated verbatim over a `List` of trees.
-/

/-- `listPfx a b` decides whether the bit-string `a` is a prefix (not necessarily
proper) of the bit-string `b`. -/
def listPfx : List Char → List Char → Bool
  | [], _ => true
  | _ :: _, [] => false
  | x :: xs, y :: ys => x == y && listPfx xs ys

/-- The distinct characters of a list in first-occurrence order (the key set of the
Go `map[rune]int` built by `BuildFrequencyTable`). -/
def firstOccurrences (l : List Char) : List Char :=
  l.foldl (fun acc c => if c ∈ acc then acc else acc ++ [c]) []

/-- `HuffmanLeaf` from `src/main.go`: frequency, rune value, and the rune rendered
as a string (the `Char` field). -/
structure HuffmanLeaf where
  Frequency : Nat
  Value : Char
  CharStr : String
deriving Repr, DecidableEq

/-- The `HuffmanTree` interface of `src/main.go` with its two implementations:
`HuffmanLeaf` (frequency, value, char-string) and `HuffmanNode` (frequency, value —
always rune 0 as built —, left and right subtrees). -/
inductive HuffmanTree where
  | leaf (Frequency : Nat) (Value : Char) (CharStr : String)
  | node (Frequency : Nat) (Value : Char) (Left Right : HuffmanTree)
deriving Repr, DecidableEq

instance : Inhabited HuffmanTree := ⟨HuffmanTree.leaf 0 'A' ""⟩

/-- The `Freq()` method of both tree variants. -/
def HuffmanTree.freq : HuffmanTree → Nat
  | .leaf f _ _ => f
  | .node f _ _ _ => f

/-- The leaves of a Huffman tree, left to right, as `HuffmanLeaf` records. -/
def HuffmanTree.leavesOf : HuffmanTree → List HuffmanLeaf
  | .leaf f v c => [⟨f, v, c⟩]
  | .node _ _ l r => l.leavesOf ++ r.leavesOf

/-! ## The `container/heap` model over `PriorityQueue = []HuffmanTree` -/

/-- Element access in the slice backing the priority queue (in the Go code every
access is in bounds; out-of-bounds reads return the default tree). -/
def pqGet (pq : List HuffmanTree) (i : Nat) : HuffmanTree :=
  pq.getD i default

/-- `PriorityQueue.Less i j`: compare the frequencies of the trees at `i` and `j`. -/
def pqLess (pq : List HuffmanTree) (i j : Nat) : Bool :=
  (pqGet pq i).freq < (pqGet pq j).freq

/-- `PriorityQueue.Swap i j`. -/
def pqSwap (pq : List HuffmanTree) (i j : Nat) : List HuffmanTree :=
  (pq.set i (pqGet pq j)).set j (pqGet pq i)

/-- `container/heap`'s internal `down(h, i, n)`: sift the element at `i` down the
heap of size `n`. -/
def siftDown (pq : List HuffmanTree) (i n : Nat) : List HuffmanTree :=
  let j1 := 2 * i + 1
  if h : j1 < n then
    let j := if j1 + 1 < n ∧ pqLess pq (j1 + 1) j1 then j1 + 1 else j1
    if pqLess pq j i then siftDown (pqSwap pq i j) j n else pq
  else pq
termination_by n - i
decreasing_by
  simp only [j, j1] at *
  split
  · rename_i hc
    omega
  · omega

/-- `container/heap`'s internal `up(h, j)`: sift the element at `j` up the heap.
(Go's `(j-1)/2` with integer division truncating toward zero agrees with the `Nat`
computation at `j = 0`, where the loop stops because `i == j`.) -/
def siftUp (pq : List HuffmanTree) (j : Nat) : List HuffmanTree :=
  let i := (j - 1) / 2
  if h : i = j then pq
  else if pqLess pq j i then siftUp (pqSwap pq i j) i
  else pq
termination_by j
decreasing_by
  simp only [i] at *
  omega

/-- The descending loop of `heap.Init`: runs `down` at indices `k-1, k-2, …, 0` on a
heap of size `n`. -/
def heapInitLoop (n : Nat) : Nat → List HuffmanTree → List HuffmanTree
  | 0, pq => pq
  | k + 1, pq => heapInitLoop n k (siftDown pq k n)

/-- `heap.Init`: establish the heap invariant by sifting down all internal nodes. -/
def heapInit (pq : List HuffmanTree) : List HuffmanTree :=
  heapInitLoop pq.length (pq.length / 2) pq

/-- `heap.Push`: append and sift up. -/
def heapPush (pq : List HuffmanTree) (x : HuffmanTree) : List HuffmanTree :=
  let pq := pq ++ [x]
  siftUp pq (pq.length - 1)

/-- `heap.Pop`: swap the root with the last element, sift the new root down over the
shortened heap, then remove and return the last element. -/
def heapPop (pq : List HuffmanTree) : HuffmanTree × List HuffmanTree :=
  let n := pq.length - 1
  let pq := pqSwap pq 0 n
  let pq := siftDown pq 0 n
  (pqGet pq n, pq.dropLast)

theorem length_pqSwap (pq : List HuffmanTree) (i j : Nat) :
    (pqSwap pq i j).length = pq.length := by
  simp [pqSwap]

theorem length_siftDown (pq : List HuffmanTree) (i n : Nat) :
    (siftDown pq i n).length = pq.length := by
  induction pq, i, n using siftDown.induct with
  | case1 pq i n j1 h j hlt ih =>
      rw [siftDown, dif_pos h]
      simp only [j, j1, dite_eq_ite] at hlt ih ⊢
      rw [if_pos hlt, ih, length_pqSwap]
  | case2 pq i n j1 h j hlt =>
      rw [siftDown, dif_pos h]
      simp only [j, j1, dite_eq_ite] at hlt ⊢
      rw [if_neg hlt]
  | case3 pq i n j1 h =>
      rw [siftDown]
      rw [dif_neg h]

theorem length_siftUp (pq : List HuffmanTree) (j : Nat) :
    (siftUp pq j).length = pq.length := by
  induction pq, j using siftUp.induct with
  | case1 pq j i h =>
      rw [siftUp]
      simp only [i] at h
      rw [dif_pos h]
  | case2 pq j i h hlt ih =>
      rw [siftUp]
      simp only [i] at *
      rw [dif_neg h, if_pos hlt, ih, length_pqSwap]
  | case3 pq j i h hlt =>
      rw [siftUp]
      simp only [i] at *
      rw [dif_neg h, if_neg hlt]

theorem length_heapPop (pq : List HuffmanTree) :
    (heapPop pq).2.length = pq.length - 1 := by
  simp [heapPop, length_siftDown, length_pqSwap]

theorem length_heapPush (pq : List HuffmanTree) (x : HuffmanTree) :
    (heapPush pq x).length = pq.length + 1 := by
  simp [heapPush, length_siftUp]

/-- The merging loop of `BuildTree`: while more than one tree remains, pop the two
lowest-frequency trees and push an internal node combining them (value rune 0). -/
def buildLoop (trees : List HuffmanTree) : List HuffmanTree :=
  if h : trees.length > 1 then
    let p1 := heapPop trees
    let a := p1.1
    let p2 := heapPop p1.2
    let b := p2.1
    buildLoop (heapPush p2.2 (HuffmanTree.node (a.freq + b.freq) (Char.ofNat 0) a b))
  else trees
termination_by trees.length
decreasing_by
  simp only [length_heapPush, length_heapPop]
  omega

/-- `BuildTree` from `src/main.go`: load the leaves into a priority queue, heapify,
merge until one tree remains, and pop it. -/
def BuildTree (leaves : List HuffmanLeaf) : HuffmanTree :=
  let trees := leaves.map fun l => HuffmanTree.leaf l.Frequency l.Value l.CharStr
  let trees := heapInit trees
  (heapPop (buildLoop trees)).1

/-- `BuildFrequencyTable` from `src/main.go`: count each rune's occurrences; one
`HuffmanLeaf` per distinct rune (map iteration modelled in first-occurrence order). -/
def BuildFrequencyTable (s : List Char) : List HuffmanLeaf :=
  (firstOccurrences s).map fun c => ⟨s.count c, c, String.singleton c⟩

/-! ## Code table generation and the Huffman encode/decode engine -/

/-- `buildEncoding` from `src/main.go`: recursively collect `(rune, code)` pairs; a
leaf maps its value to the accumulated path, an internal node recurses with `"0"`
appended for the left child and `"1"` for the right.  The Go `map[rune]string` is
modelled as the association list of insertions (left subtree first); on duplicate
runes the later insertion wins, matching the map-merge loops. -/
def buildEncoding : HuffmanTree → List Char → List (Char × List Char)
  | .leaf _ v _, pfx => [(v, pfx)]
  | .node _ _ l r, pfx => buildEncoding l (pfx ++ ['0']) ++ buildEncoding r (pfx ++ ['1'])

/-- Lookup in a Go map modelled as an insertion list: the last matching entry wins;
an absent key yields the zero value `""` (as in `encoding[c]`). -/
def mapLookup (m : List (Char × List Char)) (c : Char) : List Char :=
  match m.reverse.find? (fun p => p.1 == c) with
  | some p => p.2
  | none => []

/-- `applyHuffmanEncoding` from `src/main.go`: concatenate, for each rune of the
input in order, the runes of its code (`""` for a rune absent from the table). -/
def applyHuffmanEncoding (s : List Char) (encoding : List (Char × List Char)) : List Char :=
  s.foldl (fun acc c => acc ++ mapLookup encoding c) []

/-- `reverseMap` from `src/main.go`: invert the code table into a
`map[string]rune`, modelled as the insertion list of `(code, rune)` pairs. -/
def reverseMap (m : List (Char × List Char)) : List (List Char × Char) :=
  m.map fun p => (p.2, p.1)

/-- Lookup in the reversed map: the last matching entry wins; `none` models the
`ok = false` case of `reversed[code.String()]`. -/
def revLookup (m : List (List Char × Char)) (code : List Char) : Option Char :=
  match m.reverse.find? (fun p => p.1 == code) with
  | some p => some p.2
  | none => none

/-- The scanning loop of `applyHuffmanDecoding`: state is the decoded output and the
candidate bit buffer; each input rune is appended to the buffer, and when the buffer
matches a reverse-map entry the matched rune is emitted and the buffer cleared.
Returns the final `(decoded, buffer)` pair (the Go code returns only the first
component, discarding any leftover buffer). -/
def decodeLoop (reversed : List (List Char × Char)) :
    List Char → List Char → List Char → List Char × List Char
  | acc, code, [] => (acc, code)
  | acc, code, c :: rest =>
    let code' := code ++ [c]
    match revLookup reversed code' with
    | some val => decodeLoop reversed (acc ++ [val]) [] rest
    | none => decodeLoop reversed acc code' rest

/-- `applyHuffmanDecoding` from `src/main.go`: reverse the table and scan the bit
stream, emitting a rune whenever the accumulated buffer matches a code. -/
def applyHuffmanDecoding (s : List Char) (encoding : List (Char × List Char)) : List Char :=
  (decodeLoop (reverseMap encoding) [] [] s).1

/-! ## The case-shift transform -/

/-- Go `unicode.IsUpper` (the Unicode uppercase test), modelled on the fragment of
Go's Unicode tables at which this development evaluates it: on ASCII it is exactly
`'A'`–`'Z'`, and of the non-ASCII code points used here U+0130 (LATIN CAPITAL
LETTER I WITH DOT ABOVE), U+212A (KELVIN SIGN) and U+1D400 (MATHEMATICAL BOLD
CAPITAL A) are uppercase in Go; other non-ASCII code points — at which no theorem
below evaluates the function — are modelled as caseless. -/
def goIsUpper (c : Char) : Bool :=
  decide ((65 ≤ c.toNat ∧ c.toNat ≤ 90) ∨
    c.toNat = 0x0130 ∨ c.toNat = 0x212A ∨ c.toNat = 0x1D400)

/-- Go `unicode.IsLower` on the same fragment: exactly `'a'`–`'z'` on ASCII (no
non-ASCII lowercase letter is evaluated by the theorems below). -/
def goIsLower (c : Char) : Bool :=
  decide (97 ≤ c.toNat ∧ c.toNat ≤ 122)

/-- Go `unicode.ToLower` (the simple case mapping) on the modelled fragment:
`'A'`–`'Z'` map down by 32; U+0130 ↦ `'i'` and U+212A ↦ `'k'`, as in Go's case
tables; U+1D400 has no simple lowercase mapping and, exactly as in Go, maps to
itself; all other code points are unchanged. -/
def goToLower (c : Char) : Char :=
  if 65 ≤ c.toNat ∧ c.toNat ≤ 90 then Char.ofNat (c.toNat + 32)
  else if c.toNat = 0x0130 then 'i'
  else if c.toNat = 0x212A then 'k'
  else c

/-- Go `unicode.ToUpper` on the modelled fragment: `'a'`–`'z'` map up by 32; every
other code point evaluated below is unchanged in Go as well. -/
def goToUpper (c : Char) : Char :=
  if 97 ≤ c.toNat ∧ c.toNat ≤ 122 then Char.ofNat (c.toNat - 32)
  else c

/-- One step of `applyShiftString`'s loop body: given the current `isShifted` state
and rune, produce the new state and the emitted runes. -/
def shiftStep (isShifted : Bool) (c : Char) : Bool × List Char :=
  if goIsUpper c ∧ ¬isShifted then (true, ['↑', goToLower c])
  else if goIsLower c ∧ isShifted then (false, ['↓', c])
  else if isShifted then (isShifted, [goToLower c])
  else (isShifted, [c])

/-- The scanning loop of `applyShiftString` over the remaining runes. -/
def applyShiftLoop (isShifted : Bool) : List Char → List Char
  | [] => []
  | c :: rest => (shiftStep isShifted c).2 ++ applyShiftLoop (shiftStep isShifted c).1 rest

/-- `applyShiftString` from `src/main.go`: replace case changes by shift markers,
lower-casing the payload. -/
def applyShiftString (s : List Char) : List Char :=
  applyShiftLoop false s

/-- One step of `removeShiftString`'s loop body: `'↑'`/`'↓'` toggle the state and
emit nothing; otherwise the rune is emitted, upper-cased while shifted. -/
def unshiftStep (isShifted : Bool) (c : Char) : Bool × List Char :=
  if c = '↑' then (true, [])
  else if c = '↓' then (false, [])
  else if isShifted then (isShifted, [goToUpper c])
  else (isShifted, [c])

/-- The scanning loop of `removeShiftString`. -/
def removeShiftLoop (isShifted : Bool) : List Char → List Char
  | [] => []
  | c :: rest => (unshiftStep isShifted c).2 ++ removeShiftLoop (unshiftStep isShifted c).1 rest

/-- `removeShiftString` from `src/main.go`: the inverse scan of the case-shift
transform. -/
def removeShiftString (s : List Char) : List Char :=
  removeShiftLoop false s

/-! ## The LZ77 compressor -/

/-- `LZ77Token` from `src/main.go`; `Next` is the zero byte when the match runs to
the end of the input. -/
structure LZ77Token where
  Distance : Nat
  Length : Nat
  Next : Nat
deriving Repr, DecidableEq

/-- The inner loop of `longestMatch`: extend the match at candidate position `i`
against the run at `current`, starting from offset `l`, while the offset is below
`current - i`, both reads are in bounds, and the bytes agree. -/
def matchLenAt (data : List Nat) (i current : Nat) (l : Nat) : Nat :=
  if l < current - i ∧ i + l < data.length ∧ current + l < data.length ∧
      data.getD (i + l) 0 = data.getD (current + l) 0 then
    matchLenAt data i current (l + 1)
  else l
termination_by current - i - l
decreasing_by omega

/-- The outer loop of `longestMatch`: scan candidate positions `i` upward from the
window start, keeping the first strictly longer match (`l > length`) as
`(length, distance = current - i)`. -/
def lmLoop (data : List Nat) (current : Nat) (i : Nat) (len dist : Nat) : Nat × Nat :=
  if i < current then
    let l := matchLenAt data i current 0
    if l > len then lmLoop data current (i + 1) l (current - i)
    else lmLoop data current (i + 1) len dist
  else (len, dist)
termination_by current - i
decreasing_by all_goals omega

/-- `longestMatch` from `src/main.go`: search `[max(0, current-windowSize), current)`
for the longest run matching the run at `current` (Go's `max(0, current-windowSize)`
over ints equals truncated `Nat` subtraction); both result components start at 0. -/
def longestMatch (data : List Nat) (current windowSize : Nat) : Nat × Nat :=
  lmLoop data current (current - windowSize) 0 0

/-- The cursor loop of `LZ77Compress`: at each position take the longest window
match, read the following literal (zero byte when the match reaches the input end),
emit the token and advance by `length + 1`. -/
def compressLoop (input : List Nat) (windowSize : Nat) (i : Nat) : List LZ77Token :=
  if h : i < input.length then
    let p := longestMatch input i windowSize
    let nextChar := if i + p.1 < input.length then input.getD (i + p.1) 0 else 0
    LZ77Token.mk p.2 p.1 nextChar :: compressLoop input windowSize (i + p.1 + 1)
  else []
termination_by input.length - i
decreasing_by omega

/-- `LZ77Compress` from `src/main.go`. -/
def LZ77Compress (input : List Nat) (windowSize : Nat) : List LZ77Token :=
  compressLoop input windowSize 0

/-- Modelled from the spec (no decompressor exists in the repository): copy
`len` bytes one at a time from `dist` back in the output, each appended byte read at
the current end minus `dist`. -/
def lzCopy (out : List Nat) (dist : Nat) : Nat → List Nat
  | 0 => out
  | l + 1 => lzCopy (out ++ [out.getD (out.length - dist) 0]) dist l

/-- Modelled from the spec: replay the tokens in order — copy `Length` bytes from
`Distance` back, then append the token's literal byte, except at end-of-input (the
decompressor knows the original length `n` and appends no literal once `n` bytes
have been produced). -/
def lzReplay (n : Nat) : List Nat → List LZ77Token → List Nat
  | out, [] => out
  | out, t :: ts =>
    let afterCopy := lzCopy out t.Distance t.Length
    let afterLit := if afterCopy.length < n then afterCopy ++ [t.Next] else afterCopy
    lzReplay n afterLit ts

theorem char_toNat_ofNat {n : Nat} (h : n.isValidChar) : (Char.ofNat n).toNat = n := by
  simp [Char.ofNat, h, Char.ofNatAux, Char.toNat, UInt32.toNat]

theorem char_eq_of_toNat_eq {a b : Char} (h : a.toNat = b.toNat) : a = b := by
  apply Char.ext
  apply UInt32.ext
  exact h

theorem char_ne_of_toNat_ne {a b : Char} (h : a.toNat ≠ b.toNat) : a ≠ b := by
  intro he
  exact h (by rw [he])

theorem goIsUpper_iff (c : Char) : goIsUpper c = true ↔
    (65 ≤ c.toNat ∧ c.toNat ≤ 90) ∨
    c.toNat = 0x0130 ∨ c.toNat = 0x212A ∨ c.toNat = 0x1D400 := by
  simp [goIsUpper]

theorem goIsLower_iff (c : Char) : goIsLower c = true ↔ 97 ≤ c.toNat ∧ c.toNat ≤ 122 := by
  simp [goIsLower]

theorem goIsUpper_false (c : Char)
    (h : ¬((65 ≤ c.toNat ∧ c.toNat ≤ 90) ∨
      c.toNat = 0x0130 ∨ c.toNat = 0x212A ∨ c.toNat = 0x1D400)) :
    goIsUpper c = false := by
  simp only [goIsUpper, decide_eq_false_iff_not]
  exact h

theorem goIsUpper_of_goIsLower {c : Char} (h : goIsLower c = true) : goIsUpper c = false := by
  rw [goIsLower_iff] at h
  apply goIsUpper_false
  omega

theorem goIsLower_of_goIsUpper {c : Char} (h : goIsUpper c = true) : goIsLower c = false := by
  rw [goIsUpper_iff] at h
  simp only [goIsLower, decide_eq_false_iff_not]
  omega

theorem goIsUpper_ascii {c : Char} (hA : c.toNat < 128) :
    goIsUpper c = true ↔ 65 ≤ c.toNat ∧ c.toNat ≤ 90 := by
  rw [goIsUpper_iff]
  constructor
  · intro h
    omega
  · intro h
    exact Or.inl h

theorem goToLower_toNat_of_upper {c : Char} (h65 : 65 ≤ c.toNat) (h90 : c.toNat ≤ 90) :
    (goToLower c).toNat = c.toNat + 32 := by
  rw [goToLower, if_pos ⟨h65, h90⟩]
  exact char_toNat_ofNat (Or.inl (by omega))

theorem goToLower_id_ascii {c : Char} (hA : c.toNat < 128) (h : goIsUpper c = false) :
    goToLower c = c := by
  have h2 : ¬(65 ≤ c.toNat ∧ c.toNat ≤ 90) := by
    intro hc
    rw [(goIsUpper_ascii hA).mpr hc] at h
    exact Bool.true_eq_false.mp h
  rw [goToLower, if_neg h2, if_neg (by omega), if_neg (by omega)]

theorem goToUpper_id_of_not_lower {c : Char} (h : goIsLower c = false) : goToUpper c = c := by
  have h2 : ¬(97 ≤ c.toNat ∧ c.toNat ≤ 122) := by
    intro hc
    rw [(goIsLower_iff c).mpr hc] at h
    exact Bool.true_eq_false.mp h
  rw [goToUpper, if_neg h2]

theorem goToUpper_goToLower_of_upper {c : Char} (h65 : 65 ≤ c.toNat) (h90 : c.toNat ≤ 90) :
    goToUpper (goToLower c) = c := by
  have hn := goToLower_toNat_of_upper h65 h90
  apply char_eq_of_toNat_eq
  rw [goToUpper, if_pos (by omega)]
  rw [char_toNat_ofNat (Or.inl (by omega))]
  omega

theorem goToLower_ne_up_of_upper {c : Char} (h65 : 65 ≤ c.toNat) (h90 : c.toNat ≤ 90) :
    goToLower c ≠ '↑' := by
  apply char_ne_of_toNat_ne
  rw [goToLower_toNat_of_upper h65 h90]
  have hm : ('↑' : Char).toNat = 8593 := by decide
  omega

theorem goToLower_ne_down_of_upper {c : Char} (h65 : 65 ≤ c.toNat) (h90 : c.toNat ≤ 90) :
    goToLower c ≠ '↓' := by
  apply char_ne_of_toNat_ne
  rw [goToLower_toNat_of_upper h65 h90]
  have hm : ('↓' : Char).toNat = 8595 := by decide
  omega

theorem ascii_ne_up {c : Char} (hA : c.toNat < 128) : c ≠ '↑' := by
  apply char_ne_of_toNat_ne
  have hm : ('↑' : Char).toNat = 8593 := by decide
  omega

theorem ascii_ne_down {c : Char} (hA : c.toNat < 128) : c ≠ '↓' := by
  apply char_ne_of_toNat_ne
  have hm : ('↓' : Char).toNat = 8595 := by decide
  omega

theorem goIsUpper_goToLower_ascii {c : Char} (hA : c.toNat < 128) :
    goIsUpper (goToLower c) = false := by
  by_cases h : goIsUpper c = true
  · have h2 := (goIsUpper_ascii hA).mp h
    have hn := goToLower_toNat_of_upper h2.1 h2.2
    apply goIsUpper_false
    omega
  · rw [goToLower_id_ascii hA (Bool.not_eq_true _ |>.mp h)]
    exact Bool.not_eq_true _ |>.mp h

-- step evaluation lemmas
theorem shiftStep_upper_unshifted {c : Char} (h : goIsUpper c = true) :
    shiftStep false c = (true, ['↑', goToLower c]) := by
  simp [shiftStep, h]

theorem shiftStep_upper_shifted {c : Char} (h : goIsUpper c = true) :
    shiftStep true c = (true, [goToLower c]) := by
  simp [shiftStep, h, goIsLower_of_goIsUpper h]

theorem shiftStep_lower_shifted {c : Char} (h : goIsLower c = true) :
    shiftStep true c = (false, ['↓', c]) := by
  simp [shiftStep, h]

theorem shiftStep_not_upper_unshifted {c : Char} (h : goIsUpper c = false) :
    shiftStep false c = (false, [c]) := by
  simp [shiftStep, h]

theorem shiftStep_other_shifted {c : Char} (hu : goIsUpper c = false) (hl : goIsLower c = false) :
    shiftStep true c = (true, [goToLower c]) := by
  simp [shiftStep, hu, hl]

theorem unshiftStep_up (b : Bool) : unshiftStep b '↑' = (true, []) := by
  simp [unshiftStep]

theorem unshiftStep_down (b : Bool) : unshiftStep b '↓' = (false, []) := by
  simp [unshiftStep]

theorem unshiftStep_other_shifted {c : Char} (h1 : c ≠ '↑') (h2 : c ≠ '↓') :
    unshiftStep true c = (true, [goToUpper c]) := by
  simp [unshiftStep, h1, h2]

theorem unshiftStep_other_unshifted {c : Char} (h1 : c ≠ '↑') (h2 : c ≠ '↓') :
    unshiftStep false c = (false, [c]) := by
  simp [unshiftStep, h1, h2]

theorem removeShiftLoop_cons (b : Bool) (c : Char) (rest : List Char) :
    removeShiftLoop b (c :: rest) =
      (unshiftStep b c).2 ++ removeShiftLoop (unshiftStep b c).1 rest := rfl

-- C10 helper: on ASCII inputs no emitted rune is uppercase
theorem applyShiftLoop_no_upper_ascii (l : List Char) :
    ∀ b, (∀ c ∈ l, c.toNat < 128) → ∀ d ∈ applyShiftLoop b l, goIsUpper d = false := by
  induction l with
  | nil =>
      intro b _ d hd
      simp [applyShiftLoop] at hd
  | cons c rest ih =>
      intro b hA d hd
      have hcA := hA c (List.mem_cons_self c rest)
      have hrest : ∀ x ∈ rest, x.toNat < 128 := fun x hx => hA x (List.mem_cons_of_mem c hx)
      simp only [applyShiftLoop, List.mem_append] at hd
      rcases hd with h1 | h2
      · by_cases hcu : goIsUpper c = true
        · by_cases hb : b = true
          · subst hb
            rw [shiftStep_upper_shifted hcu] at h1
            rcases List.mem_singleton.mp h1 with rfl
            exact goIsUpper_goToLower_ascii hcA
          · simp only [Bool.not_eq_true] at hb
            subst hb
            rw [shiftStep_upper_unshifted hcu] at h1
            rcases List.mem_cons.mp h1 with rfl | h1
            · decide
            · rcases List.mem_singleton.mp h1 with rfl
              exact goIsUpper_goToLower_ascii hcA
        · rw [Bool.not_eq_true] at hcu
          by_cases hb : b = true
          · subst hb
            by_cases hcl : goIsLower c = true
            · rw [shiftStep_lower_shifted hcl] at h1
              rcases List.mem_cons.mp h1 with rfl | h1
              · decide
              · rcases List.mem_singleton.mp h1 with rfl
                exact goIsUpper_of_goIsLower hcl
            · rw [Bool.not_eq_true] at hcl
              rw [shiftStep_other_shifted hcu hcl] at h1
              rcases List.mem_singleton.mp h1 with rfl
              exact goIsUpper_goToLower_ascii hcA
          · simp only [Bool.not_eq_true] at hb
            subst hb
            rw [shiftStep_not_upper_unshifted hcu] at h1
            rcases List.mem_singleton.mp h1 with rfl
            exact hcu
      · exact ih (shiftStep b c).1 hrest d h2

-- C4 helper: state-synchronised roundtrip on ASCII inputs
theorem remove_apply_loop_ascii (l : List Char) : ∀ b : Bool,
    (∀ c ∈ l, c.toNat < 128) →
    removeShiftLoop b (applyShiftLoop b l) = l := by
  induction l with
  | nil =>
      intro b _
      rfl
  | cons c rest ih =>
      intro b hA
      have hcA := hA c (List.mem_cons_self c rest)
      have hrest : ∀ x ∈ rest, x.toNat < 128 := fun x hx => hA x (List.mem_cons_of_mem c hx)
      have hcup : c ≠ '↑' := ascii_ne_up hcA
      have hcdown : c ≠ '↓' := ascii_ne_down hcA
      simp only [applyShiftLoop]
      by_cases hcu : goIsUpper c = true
      · have hbounds := (goIsUpper_ascii hcA).mp hcu
        by_cases hb : b = true
        · subst hb
          rw [shiftStep_upper_shifted hcu]
          simp only [List.cons_append, List.nil_append, removeShiftLoop_cons,
            unshiftStep_other_shifted (goToLower_ne_up_of_upper hbounds.1 hbounds.2)
              (goToLower_ne_down_of_upper hbounds.1 hbounds.2)]
          rw [goToUpper_goToLower_of_upper hbounds.1 hbounds.2]
          simp [ih true hrest]
        · simp only [Bool.not_eq_true] at hb
          subst hb
          rw [shiftStep_upper_unshifted hcu]
          simp only [List.cons_append, List.nil_append, removeShiftLoop_cons,
            unshiftStep_up,
            unshiftStep_other_shifted (goToLower_ne_up_of_upper hbounds.1 hbounds.2)
              (goToLower_ne_down_of_upper hbounds.1 hbounds.2)]
          rw [goToUpper_goToLower_of_upper hbounds.1 hbounds.2]
          simp [ih true hrest]
      · rw [Bool.not_eq_true] at hcu
        by_cases hb : b = true
        · subst hb
          by_cases hcl : goIsLower c = true
          · rw [shiftStep_lower_shifted hcl]
            simp only [List.cons_append, List.nil_append, removeShiftLoop_cons,
              unshiftStep_down, unshiftStep_other_unshifted hcup hcdown]
            simp [ih false hrest]
          · rw [Bool.not_eq_true] at hcl
            rw [shiftStep_other_shifted hcu hcl]
            rw [goToLower_id_ascii hcA hcu]
            simp only [List.cons_append, List.nil_append, removeShiftLoop_cons,
              unshiftStep_other_shifted hcup hcdown]
            rw [goToUpper_id_of_not_lower hcl]
            simp [ih true hrest]
        · simp only [Bool.not_eq_true] at hb
          subst hb
          rw [shiftStep_not_upper_unshifted hcu]
          simp only [List.cons_append, List.nil_append, removeShiftLoop_cons,
            unshiftStep_other_unshifted hcup hcdown]
          simp [ih false hrest]

/-- Counterexample to C4 as stated: the marker-free one-rune input U+212A (KELVIN
SIGN) is uppercase in Go with simple lowercase mapping `'k'`; the transform emits
`"↑k"` and the inverse restores the ASCII `'K'` (U+004B), not U+212A, so the
round-trip fails on a marker-free input. -/
theorem shift_roundtrip_cex :
    (∀ c ∈ [Char.ofNat 0x212A], c ≠ '↑' ∧ c ≠ '↓') ∧
    removeShiftString (applyShiftString [Char.ofNat 0x212A]) ≠ [Char.ofNat 0x212A] := by
  decide

/-- **C4 (amended).** For every input string free of the two markers all of whose
runes are ASCII, the case-shift transform is reversed exactly by its inverse.
(Outside ASCII the Go simple case maps are not involutive — see the
counterexample — so the marker-free hypothesis alone is not enough.) -/
theorem shift_roundtrip_ascii (s : List Char)
    (hfree : ∀ c ∈ s, c ≠ '↑' ∧ c ≠ '↓')
    (hascii : ∀ c ∈ s, c.toNat < 128) :
    removeShiftString (applyShiftString s) = s :=
  remove_apply_loop_ascii s false hascii

/-- Witness for the amended C4 at the spec's example input `"AbRaCaDaBrA"`. -/
theorem shift_roundtrip_ascii_witness :
    ((∀ c ∈ ['A', 'b', 'R', 'a', 'C', 'a', 'D', 'a', 'B', 'r', 'A'], c ≠ '↑' ∧ c ≠ '↓') ∧
      (∀ c ∈ ['A', 'b', 'R', 'a', 'C', 'a', 'D', 'a', 'B', 'r', 'A'], c.toNat < 128)) ∧
    removeShiftString (applyShiftString ['A', 'b', 'R', 'a', 'C', 'a', 'D', 'a', 'B', 'r', 'A']) =
      ['A', 'b', 'R', 'a', 'C', 'a', 'D', 'a', 'B', 'r', 'A'] :=
  ⟨⟨by decide, by decide⟩, shift_roundtrip_ascii _ (by decide) (by decide)⟩

/-- Counterexample to C10 as stated: U+1D400 (MATHEMATICAL BOLD CAPITAL A) is
uppercase in Go but has no simple lowercase mapping, so `applyShiftString` emits it
unchanged after the shift-in marker and the output does contain an uppercase
rune. -/
theorem applyShift_upper_output_cex :
    ¬ (∀ c ∈ applyShiftString [Char.ofNat 0x1D400], goIsUpper c = false) := by
  decide

/-- **C10 (amended).** For every input all of whose runes are ASCII, the output of
`applyShiftString` contains no uppercase rune: every uppercase input character is
emitted lowercased (preceded by a shift-in marker when the scan state was
unshifted), so the output alphabet is the two markers plus non-uppercase ASCII. -/
theorem applyShift_output_not_upper_ascii (s : List Char)
    (hascii : ∀ c ∈ s, c.toNat < 128) :
    ∀ c ∈ applyShiftString s, goIsUpper c = false :=
  fun c hc => applyShiftLoop_no_upper_ascii s false hascii c hc

/-- Witness for the amended C10 at the input `['A']`. -/
theorem applyShift_output_not_upper_ascii_witness :
    ((∀ c ∈ (['A'] : List Char), c.toNat < 128) ∧ 'a' ∈ applyShiftString ['A']) ∧
    goIsUpper 'a' = false :=
  ⟨⟨by decide, by decide⟩, applyShift_output_not_upper_ascii ['A'] (by decide) 'a' (by decide)⟩

theorem matchLenAt_ge (data : List Nat) (i cur l0 : Nat) : l0 ≤ matchLenAt data i cur l0 := by
  induction l0 using matchLenAt.induct data i cur with
  | case1 l h ih =>
      rw [matchLenAt, if_pos h]
      omega
  | case2 l h =>
      rw [matchLenAt, if_neg h]

theorem matchLenAt_le (data : List Nat) (i cur : Nat) :
    ∀ l0, l0 ≤ cur - i → matchLenAt data i cur l0 ≤ cur - i := by
  intro l0
  induction l0 using matchLenAt.induct data i cur with
  | case1 l h ih =>
      intro hl
      rw [matchLenAt, if_pos h]
      exact ih (by omega)
  | case2 l h =>
      intro hl
      rw [matchLenAt, if_neg h]
      exact hl

theorem matchLenAt_agrees (data : List Nat) (i cur : Nat) :
    ∀ l0 k, l0 ≤ k → k < matchLenAt data i cur l0 →
      k < cur - i ∧ i + k < data.length ∧ cur + k < data.length ∧
      data.getD (i + k) 0 = data.getD (cur + k) 0 := by
  intro l0
  induction l0 using matchLenAt.induct data i cur with
  | case1 l h ih =>
      intro k hk1 hk2
      rw [matchLenAt, if_pos h] at hk2
      rcases Nat.eq_or_lt_of_le hk1 with rfl | hlt
      · exact h
      · exact ih k hlt hk2
  | case2 l h =>
      intro k hk1 hk2
      rw [matchLenAt, if_neg h] at hk2
      omega

/-- The loop invariant of `longestMatch`'s candidate scan, stated at scan position
`i` with current best `(len, dist)`: either nothing matched yet, or the best comes
from the first candidate attaining it, every earlier candidate being strictly
shorter and every scanned candidate no longer. -/
def lmInv (data : List Nat) (cur s i len dist : Nat) : Prop :=
  (len = 0 ∧ dist = 0 ∧ ∀ j, s ≤ j → j < i → matchLenAt data j cur 0 = 0)
  ∨ (∃ j, s ≤ j ∧ j < i ∧ len = matchLenAt data j cur 0 ∧ dist = cur - j ∧ 0 < len
      ∧ (∀ j2, s ≤ j2 → j2 < j → matchLenAt data j2 cur 0 < len)
      ∧ (∀ j2, s ≤ j2 → j2 < i → matchLenAt data j2 cur 0 ≤ len))

theorem lmLoop_invariant (data : List Nat) (cur s : Nat) :
    ∀ i len dist, s ≤ i → i ≤ cur → lmInv data cur s i len dist →
      lmInv data cur s cur (lmLoop data cur i len dist).1 (lmLoop data cur i len dist).2 := by
  intro i len dist
  induction i, len, dist using lmLoop.induct data cur with
  | case1 i len dist hcur l hgt ih =>
      intro hs hc hinv
      rw [lmLoop, if_pos hcur]
      simp only [l] at *
      rw [if_pos hgt]
      apply ih (by omega) (by omega)
      right
      refine ⟨i, hs, by omega, rfl, rfl, by omega, ?_, ?_⟩
      · intro j2 hj2 hj2i
        rcases hinv with ⟨hl0, _, hall⟩ | ⟨j, hj1, hj2', hlen, _, hpos, hfirst, hub⟩
        · rw [hall j2 hj2 hj2i]
          omega
        · have := hub j2 hj2 hj2i
          omega
      · intro j2 hj2 hj2i
        rcases Nat.lt_or_ge j2 i with hlt | hge
        · rcases hinv with ⟨hl0, _, hall⟩ | ⟨j, hj1, hj2', hlen, _, hpos, hfirst, hub⟩
          · rw [hall j2 hj2 hlt]
            omega
          · have := hub j2 hj2 hlt
            omega
        · have : j2 = i := by omega
          subst this
          omega
  | case2 i len dist hcur l hgt ih =>
      intro hs hc hinv
      rw [lmLoop, if_pos hcur]
      simp only [l] at *
      rw [if_neg hgt]
      apply ih (by omega) (by omega)
      rcases hinv with ⟨hl0, hd0, hall⟩ | ⟨j, hj1, hj2', hlen, hdist, hpos, hfirst, hub⟩
      · left
        refine ⟨hl0, hd0, ?_⟩
        intro j hj hji
        rcases Nat.lt_or_ge j i with hlt | hge
        · exact hall j hj hlt
        · have : j = i := by omega
          subst this
          have := matchLenAt_ge data j cur 0
          omega
      · right
        refine ⟨j, hj1, by omega, hlen, hdist, hpos, hfirst, ?_⟩
        intro j2 hj2 hj2i
        rcases Nat.lt_or_ge j2 i with hlt | hge
        · exact hub j2 hj2 hlt
        · have : j2 = i := by omega
          subst this
          omega
  | case3 i len dist hcur =>
      intro hs hc hinv
      rw [lmLoop, if_neg hcur]
      have : i = cur := by omega
      subst this
      exact hinv

/-- Specification of `longestMatch`: the result satisfies the scan invariant over
the full window `[cur - ws, cur)`. -/
theorem longestMatch_spec (data : List Nat) (cur ws : Nat) :
    lmInv data cur (cur - ws) cur
      (longestMatch data cur ws).1 (longestMatch data cur ws).2 := by
  have h := lmLoop_invariant data cur (cur - ws) (cur - ws) 0 0 (Nat.le_refl _)
    (Nat.sub_le cur ws) (Or.inl ⟨rfl, rfl, fun j hj hji => by omega⟩)
  exact h

theorem longestMatch_bounds (data : List Nat) (cur ws : Nat) :
    (longestMatch data cur ws).1 ≤ (longestMatch data cur ws).2 ∧
    (longestMatch data cur ws).2 ≤ ws := by
  rcases longestMatch_spec data cur ws with ⟨hl, hd, _⟩ | ⟨j, hj1, hj2, hlen, hdist, hpos, _, _⟩
  · omega
  · have h1 : matchLenAt data j cur 0 ≤ cur - j := matchLenAt_le data j cur 0 (by omega)
    omega

theorem longestMatch_cases (data : List Nat) (cur ws : Nat) :
    ((longestMatch data cur ws).1 = 0 ∧ (longestMatch data cur ws).2 = 0) ∨
    ∃ j, cur - ws ≤ j ∧ j < cur ∧
      (longestMatch data cur ws).1 = matchLenAt data j cur 0 ∧
      (longestMatch data cur ws).2 = cur - j ∧ 0 < (longestMatch data cur ws).1 := by
  rcases longestMatch_spec data cur ws with ⟨hl, hd, _⟩ | ⟨j, hj1, hj2, hlen, hdist, hpos, _, _⟩
  · exact Or.inl ⟨hl, hd⟩
  · exact Or.inr ⟨j, hj1, hj2, hlen, hdist, hpos⟩

theorem getD_take (l : List Nat) (n i : Nat) (h : i < n) :
    (l.take n).getD i 0 = l.getD i 0 := by
  simp [List.getD_eq_getElem?_getD, List.getElem?_take, h]

theorem take_append_getD (l : List Nat) (m : Nat) (h : m < l.length) :
    l.take m ++ [l.getD m 0] = l.take (m + 1) := by
  rw [List.take_succ]
  congr 1
  rw [List.getElem?_eq_getElem h]
  simp [List.getD_eq_getElem?_getD, List.getElem?_eq_getElem h]

theorem lzCopy_take (input : List Nat) (d : Nat) (hd : 0 < d) :
    ∀ l m, d ≤ m → m + l ≤ input.length →
      (∀ k, k < l → input.getD (m - d + k) 0 = input.getD (m + k) 0) →
      lzCopy (input.take m) d l = input.take (m + l) := by
  intro l
  induction l with
  | zero =>
      intro m _ _ _
      rfl
  | succ l ih =>
      intro m hdm hml hagree
      rw [lzCopy]
      have hlen : (input.take m).length = m := by
        rw [List.length_take]
        omega
      have hidx : (input.take m).getD ((input.take m).length - d) 0 = input.getD m 0 := by
        rw [hlen, getD_take input m (m - d) (by omega)]
        have h0 := hagree 0 (Nat.succ_pos l)
        simpa using h0
      rw [hidx, take_append_getD input m (by omega)]
      have := ih (m + 1) (by omega) (by omega) ?_
      · rw [this]
        congr 1
        omega
      · intro k hk
        have := hagree (k + 1) (by omega)
        have e1 : m + 1 - d + k = m - d + (k + 1) := by omega
        have e2 : m + 1 + k = m + (k + 1) := by omega
        rw [e1, e2]
        exact this

theorem lzReplay_compressLoop (input : List Nat) (ws : Nat) :
    ∀ i, i ≤ input.length →
      lzReplay input.length (input.take i) (compressLoop input ws i) = input := by
  intro i
  induction i using compressLoop.induct input ws with
  | case1 i hi p ih =>
      intro hle
      rw [compressLoop, dif_pos hi]
      simp only [p] at *
      rw [lzReplay]
      rcases longestMatch_cases input i ws with ⟨hl, hdist⟩ | ⟨j, hj1, hj2, hlen, hdist, hpos⟩
      · -- no match: copy nothing, literal input[i]
        rw [hl, hdist]
        simp only [lzCopy]
        have hlen2 : (input.take i).length = i := by
          rw [List.length_take]
          omega
        rw [if_pos (by omega : i + 0 < input.length)]
        rw [if_pos (by rw [hlen2]; omega)]
        have : i + 0 = i := by omega
        rw [this, take_append_getD input i (by omega)]
        have := ih (by omega)
        rw [hl] at this
        have e : i + 0 + 1 = i + 1 := by omega
        rw [e] at this ⊢
        exact this
      · -- match of length L > 0 at source j, distance i - j
        set L := (longestMatch input i ws).1 with hL
        set D := (longestMatch input i ws).2 with hD
        have hiL : i + L ≤ input.length := by
          have hag := matchLenAt_agrees input j i 0 (L - 1) (by omega) (by omega)
          obtain ⟨h1, h2, h3, h4⟩ := hag
          omega
        have hcopy : lzCopy (input.take i) D L = input.take (i + L) := by
          rw [hdist]
          apply lzCopy_take input (i - j) (by omega) L i (by omega) (by omega)
          intro k hk
          have hag := matchLenAt_agrees input j i 0 k (by omega) (by omega)
          have e : i - (i - j) + k = j + k := by omega
          rw [e]
          exact hag.2.2.2
        rw [hcopy]
        have hlenc : (input.take (i + L)).length = i + L := by
          rw [List.length_take]
          omega
        rcases Nat.lt_or_ge (i + L) input.length with hlt | hge
        · -- literal present
          rw [if_pos hlt, if_pos (by rw [hlenc]; omega)]
          rw [take_append_getD input (i + L) hlt]
          exact ih (by omega)
        · -- match runs to the end: no literal
          have hEq : i + L = input.length := by omega
          rw [if_neg (show ¬((List.take (i + L) input).length < input.length) from by
            rw [hlenc]; omega)]
          have hrest : compressLoop input ws (i + L + 1) = [] := by
            rw [compressLoop, dif_neg (by omega)]
          rw [hrest, hEq, List.take_length]
          rfl
  | case2 i hi =>
      intro hle
      rw [compressLoop, dif_neg hi]
      have : i = input.length := by omega
      subst this
      rw [List.take_length]
      rfl

/-- **C3.** For every byte sequence and positive window size, replaying the token
sequence of `LZ77Compress` (copying `Length` bytes from `Distance` back, then the
literal byte, with no literal at end-of-input) reconstructs the input exactly. -/
theorem lz77_roundtrip (input : List Nat) (ws : Nat) (hws : 0 < ws) :
    lzReplay input.length [] (LZ77Compress input ws) = input := by
  have := lzReplay_compressLoop input ws 0 (Nat.zero_le _)
  simpa [LZ77Compress] using this

theorem lz77_roundtrip_witness :
    0 < 2 ∧ lzReplay 5 [] (LZ77Compress [97, 97, 97, 97, 97] 2) = [97, 97, 97, 97, 97] :=
  ⟨by decide, lz77_roundtrip [97, 97, 97, 97, 97] 2 (by decide)⟩

theorem compressLoop_token_bounds (input : List Nat) (ws : Nat) :
    ∀ i, ∀ t ∈ compressLoop input ws i, t.Distance ≤ ws ∧ t.Length ≤ ws := by
  intro i
  induction i using compressLoop.induct input ws with
  | case1 i hi p ih =>
      intro t ht
      rw [compressLoop, dif_pos hi] at ht
      simp only [p] at *
      rcases List.mem_cons.mp ht with rfl | hmem
      · have hb := longestMatch_bounds input i ws
        refine ⟨?_, ?_⟩ <;> dsimp only <;> omega
      · exact ih t hmem
  | case2 i hi =>
      intro t ht
      rw [compressLoop, dif_neg hi] at ht
      simp at ht

/-- **C5 (amended).** For every byte sequence and positive window size, every token
of `LZ77Compress` satisfies `Distance ≤ windowSize` and `Length ≤ windowSize`
(the length bound is not strict: a match may fill the whole window). -/
theorem lz77_token_bounds (input : List Nat) (ws : Nat) (hws : 0 < ws) :
    ∀ t ∈ LZ77Compress input ws, t.Distance ≤ ws ∧ t.Length ≤ ws :=
  fun t ht => compressLoop_token_bounds input ws 0 t ht

/-- Witness for the amended C5. -/
theorem lz77_token_bounds_witness :
    (0 < 2 ∧ (⟨0, 0, 97⟩ : LZ77Token) ∈ LZ77Compress [97, 97] 2) ∧
    ((⟨0, 0, 97⟩ : LZ77Token).Distance ≤ 2 ∧ (⟨0, 0, 97⟩ : LZ77Token).Length ≤ 2) :=
  ⟨⟨by decide, by simp [LZ77Compress, compressLoop, longestMatch, lmLoop, matchLenAt]⟩,
    lz77_token_bounds [97, 97] 2 (by decide) ⟨0, 0, 97⟩
      (by simp [LZ77Compress, compressLoop, longestMatch, lmLoop, matchLenAt])⟩

/-- Counterexample to C5 as stated: on input `"aaaaa"` with window size 2 the third
token is `(2, 2, 0)`, whose length equals the window size, violating the claimed
strict bound `Length < windowSize`. -/
theorem lz77_strict_length_bound_cex :
    ¬ (∀ t ∈ LZ77Compress [97, 97, 97, 97, 97] 2, t.Length < 2) := by
  intro h
  have := h ⟨2, 2, 0⟩ (by simp [LZ77Compress, compressLoop, longestMatch, lmLoop, matchLenAt])
  exact absurd this (by decide)

/-- **C6 (amended).** Among window positions attaining the maximal match length,
`longestMatch` returns the one found first in scan order, i.e. the **largest**
distance: any candidate `j` attaining the returned length lies no earlier than the
winner, so `cur - j ≤` returned distance. -/
theorem longestMatch_tie_largest_distance (data : List Nat) (cur ws j : Nat)
    (h1 : cur - ws ≤ j) (h2 : j < cur)
    (hpos : 0 < (longestMatch data cur ws).1)
    (heq : matchLenAt data j cur 0 = (longestMatch data cur ws).1) :
    cur - j ≤ (longestMatch data cur ws).2 := by
  rcases longestMatch_spec data cur ws with ⟨hl, _, _⟩ |
    ⟨j0, hj01, hj02, hlen, hdist, hp, hfirst, hub⟩
  · omega
  · have hj0j : j0 ≤ j := by
      by_contra hlt
      push_neg at hlt
      have := hfirst j h1 hlt
      omega
    omega

/-- Witness for the amended C6: on `[1,2,1,2,1,2]` at cursor 4, the candidate at
distance 2 ties the maximal length 2, and the returned distance 4 is ≥ 2. -/
theorem longestMatch_tie_largest_distance_witness :
    (0 < (longestMatch [1, 2, 1, 2, 1, 2] 4 10).1 ∧
      matchLenAt [1, 2, 1, 2, 1, 2] 2 4 0 = (longestMatch [1, 2, 1, 2, 1, 2] 4 10).1) ∧
    4 - 2 ≤ (longestMatch [1, 2, 1, 2, 1, 2] 4 10).2 :=
  ⟨⟨by simp [longestMatch, lmLoop, matchLenAt], by simp [longestMatch, lmLoop, matchLenAt]⟩,
    longestMatch_tie_largest_distance [1, 2, 1, 2, 1, 2] 4 10 2 (by decide) (by decide)
      (by simp [longestMatch, lmLoop, matchLenAt]) (by simp [longestMatch, lmLoop, matchLenAt])⟩

/-- Counterexample to C6 as stated: on `[1,2,1,2,1,2]` at cursor 4 the candidates at
distance 4 and distance 2 both match with maximal length 2, yet `longestMatch`
returns distance 4, not the smallest tied distance 2. -/
theorem longestMatch_tie_smallest_distance_cex :
    matchLenAt [1, 2, 1, 2, 1, 2] 2 4 0 = (longestMatch [1, 2, 1, 2, 1, 2] 4 10).1 ∧
    ¬ ((longestMatch [1, 2, 1, 2, 1, 2] 4 10).2 ≤ 4 - 2) := by
  constructor
  · simp [matchLenAt, longestMatch, lmLoop]
  · simp [longestMatch, lmLoop, matchLenAt]

/-- **C7.** On the single-symbol input `"aaaa"` the tree builder and code generator
do complete without failure, but the sole symbol receives the *empty* code, so the
encoding of `"aaaa"` is the empty stream and decoding it returns `""`, not `"aaaa"`:
the round-trip half of the claim fails on the code (the spec itself notes in §9 that
the empty code cannot round-trip). -/
theorem huffman_single_symbol_decode_empty :
    buildEncoding (BuildTree (BuildFrequencyTable ['a', 'a', 'a', 'a'])) [] = [('a', [])] ∧
    applyHuffmanEncoding ['a', 'a', 'a', 'a']
      (buildEncoding (BuildTree (BuildFrequencyTable ['a', 'a', 'a', 'a'])) []) = [] ∧
    applyHuffmanDecoding
      (applyHuffmanEncoding ['a', 'a', 'a', 'a']
        (buildEncoding (BuildTree (BuildFrequencyTable ['a', 'a', 'a', 'a'])) []))
      (buildEncoding (BuildTree (BuildFrequencyTable ['a', 'a', 'a', 'a'])) []) = [] := by
  refine ⟨?_, ?_, ?_⟩ <;>
    simp [BuildTree, BuildFrequencyTable, firstOccurrences, heapInit, heapInitLoop, buildLoop,
      heapPop, heapPush, siftDown, siftUp, pqSwap, pqGet, pqLess, buildEncoding,
      applyHuffmanEncoding, applyHuffmanDecoding, mapLookup, reverseMap, revLookup, decodeLoop]

/-- **C8 (amended).** `applyHuffmanDecoding` has no failure path: when at
end-of-stream the accumulated candidate buffer is non-empty and matches no table
entry, it returns exactly the symbols decoded so far, silently discarding the
buffer. -/
theorem huffman_decode_silent_truncation (s : List Char) (m : List (Char × List Char))
    (hne : (decodeLoop (reverseMap m) [] [] s).2 ≠ [])
    (hun : revLookup (reverseMap m) (decodeLoop (reverseMap m) [] [] s).2 = none) :
    applyHuffmanDecoding s m = (decodeLoop (reverseMap m) [] [] s).1 := rfl

/-- Witness for the amended C8 at the stream `"01"` with table `{a ↦ "0"}`. -/
theorem huffman_decode_silent_truncation_witness :
    ((decodeLoop (reverseMap [('a', ['0'])]) [] [] ['0', '1']).2 ≠ [] ∧
      revLookup (reverseMap [('a', ['0'])])
        (decodeLoop (reverseMap [('a', ['0'])]) [] [] ['0', '1']).2 = none) ∧
    applyHuffmanDecoding ['0', '1'] [('a', ['0'])] =
      (decodeLoop (reverseMap [('a', ['0'])]) [] [] ['0', '1']).1 :=
  ⟨⟨by decide, by decide⟩,
    huffman_decode_silent_truncation ['0', '1'] [('a', ['0'])] (by decide) (by decide)⟩

/-- Counterexample to C8 as stated: on the stream `"01"` with table `{a ↦ "0"}` the
scan ends with the non-empty unmatched buffer `"1"`, yet `applyHuffmanDecoding`
returns the symbols decoded so far (`"a"`) — no failure is surfaced. -/
theorem huffman_decode_desync_cex :
    (decodeLoop (reverseMap [('a', ['0'])]) [] [] ['0', '1']).2 = ['1'] ∧
    revLookup (reverseMap [('a', ['0'])]) ['1'] = none ∧
    applyHuffmanDecoding ['0', '1'] [('a', ['0'])] = ['a'] := by
  decide

theorem getElem_cons_set_perm {α : Type} (t : List α) :
    ∀ (m : Nat) (a : α) (hm : m < t.length),
      List.Perm (t[m] :: t.set m a) (a :: t) := by
  induction t with
  | nil =>
      intro m a hm
      simp at hm
  | cons b t' ih =>
      intro m a hm
      match m with
      | 0 =>
          simp only [List.getElem_cons_zero, List.set_cons_zero]
          exact List.Perm.swap a b t'
      | k + 1 =>
          have hk : k < t'.length := by simpa using hm
          simp only [List.getElem_cons_succ, List.set_cons_succ]
          have h1 : List.Perm (t'[k] :: b :: t'.set k a)
              (b :: t'[k] :: t'.set k a) := List.Perm.swap _ _ _
          have h2 : List.Perm (b :: t'[k] :: t'.set k a) (b :: a :: t') :=
            (ih k a hk).cons b
          have h3 : List.Perm (b :: a :: t') (a :: b :: t') := List.Perm.swap _ _ _
          exact (h1.trans h2).trans h3

theorem set_set_perm {α : Type} (l : List α) :
    ∀ (i j : Nat) (hi : i < l.length) (hj : j < l.length),
      List.Perm ((l.set i (l[j])).set j (l[i])) l := by
  induction l with
  | nil =>
      intro i j hi hj
      simp at hi
  | cons a t ih =>
      intro i j hi hj
      match i, j with
      | 0, 0 =>
          simp
      | 0, m + 1 =>
          simp only [List.getElem_cons_zero, List.getElem_cons_succ,
            List.set_cons_zero, List.set_cons_succ]
          exact getElem_cons_set_perm t m a (by simpa using hj)
      | n + 1, 0 =>
          simp only [List.getElem_cons_zero, List.getElem_cons_succ,
            List.set_cons_zero, List.set_cons_succ]
          exact getElem_cons_set_perm t n a (by simpa using hi)
      | n + 1, m + 1 =>
          simp only [List.getElem_cons_succ, List.set_cons_succ]
          exact (ih n m (by simpa using hi) (by simpa using hj)).cons a

theorem pqGet_eq_getElem (pq : List HuffmanTree) (i : Nat) (h : i < pq.length) :
    pqGet pq i = pq[i] := by
  simp [pqGet, List.getD_eq_getElem?_getD, List.getElem?_eq_getElem h]

theorem pqSwap_perm (pq : List HuffmanTree) (i j : Nat)
    (hi : i < pq.length) (hj : j < pq.length) : List.Perm (pqSwap pq i j) pq := by
  rw [pqSwap, pqGet_eq_getElem pq i hi, pqGet_eq_getElem pq j hj]
  exact set_set_perm pq i j hi hj

theorem siftDown_perm (pq : List HuffmanTree) (i n : Nat) :
    n ≤ pq.length → List.Perm (siftDown pq i n) pq := by
  induction pq, i, n using siftDown.induct with
  | case1 pq i n j1 h j hlt ih =>
      intro hn
      rw [siftDown, dif_pos h]
      simp only [j, j1, dite_eq_ite] at hlt ih ⊢
      rw [if_pos hlt]
      have hb : i < (if 2 * i + 1 + 1 < n ∧ pqLess pq (2 * i + 1 + 1) (2 * i + 1) = true
          then 2 * i + 1 + 1 else 2 * i + 1) ∧
          (if 2 * i + 1 + 1 < n ∧ pqLess pq (2 * i + 1 + 1) (2 * i + 1) = true
          then 2 * i + 1 + 1 else 2 * i + 1) < n := by
        constructor
        · split <;> omega
        · split <;> omega
      have hswap := pqSwap_perm pq i _ (by omega) (by omega : (if 2 * i + 1 + 1 < n ∧
          pqLess pq (2 * i + 1 + 1) (2 * i + 1) = true then 2 * i + 1 + 1 else 2 * i + 1) <
          pq.length)
      exact (ih (by rw [length_pqSwap]; exact hn)).trans hswap
  | case2 pq i n j1 h j hlt =>
      intro hn
      rw [siftDown, dif_pos h]
      simp only [j, j1, dite_eq_ite] at hlt ⊢
      rw [if_neg hlt]
  | case3 pq i n j1 h =>
      intro hn
      rw [siftDown, dif_neg h]

theorem siftUp_perm (pq : List HuffmanTree) (j : Nat) :
    j < pq.length → List.Perm (siftUp pq j) pq := by
  induction pq, j using siftUp.induct with
  | case1 pq j i h =>
      intro hj
      rw [siftUp]
      simp only [i] at h
      rw [dif_pos h]
  | case2 pq j i h hlt ih =>
      intro hj
      rw [siftUp]
      simp only [i] at *
      rw [dif_neg h, if_pos hlt]
      have hij : (j - 1) / 2 < j := by omega
      have hswap := pqSwap_perm pq ((j - 1) / 2) j (by omega) hj
      exact (ih (by rw [length_pqSwap]; omega)).trans hswap
  | case3 pq j i h hlt =>
      intro hj
      rw [siftUp]
      simp only [i] at *
      rw [dif_neg h, if_neg hlt]

theorem heapInitLoop_perm (n : Nat) : ∀ (k : Nat) (pq : List HuffmanTree),
    n ≤ pq.length → List.Perm (heapInitLoop n k pq) pq := by
  intro k
  induction k with
  | zero =>
      intro pq hn
      rw [heapInitLoop]
  | succ k ih =>
      intro pq hn
      rw [heapInitLoop]
      have h1 := siftDown_perm pq k n hn
      have h2 := ih (siftDown pq k n) (by rw [length_siftDown]; exact hn)
      exact h2.trans h1

theorem heapInit_perm (pq : List HuffmanTree) : List.Perm (heapInit pq) pq :=
  heapInitLoop_perm pq.length (pq.length / 2) pq (Nat.le_refl _)

theorem heapPush_perm (pq : List HuffmanTree) (x : HuffmanTree) :
    List.Perm (heapPush pq x) (x :: pq) := by
  rw [heapPush]
  have h1 := siftUp_perm (pq ++ [x]) ((pq ++ [x]).length - 1) (by simp)
  exact h1.trans (List.perm_append_singleton x pq)

theorem heapPop_perm (pq : List HuffmanTree) (h : pq ≠ []) :
    List.Perm ((heapPop pq).1 :: (heapPop pq).2) pq := by
  have hlen : 0 < pq.length := List.length_pos.mpr h
  rw [heapPop]
  have h1 : List.Perm (pqSwap pq 0 (pq.length - 1)) pq :=
    pqSwap_perm pq 0 (pq.length - 1) (by omega) (by omega)
  have h2 : List.Perm (siftDown (pqSwap pq 0 (pq.length - 1)) 0 (pq.length - 1))
      (pqSwap pq 0 (pq.length - 1)) :=
    siftDown_perm _ 0 (pq.length - 1) (by rw [length_pqSwap]; omega)
  have h3 := h2.trans h1
  have hlen2 : (siftDown (pqSwap pq 0 (pq.length - 1)) 0 (pq.length - 1)).length = pq.length := by
    rw [length_siftDown, length_pqSwap]
  have hne : siftDown (pqSwap pq 0 (pq.length - 1)) 0 (pq.length - 1) ≠ [] := by
    intro he
    rw [he] at hlen2
    simp at hlen2
    omega
  have hsplit : (siftDown (pqSwap pq 0 (pq.length - 1)) 0 (pq.length - 1)).dropLast ++
      [(siftDown (pqSwap pq 0 (pq.length - 1)) 0 (pq.length - 1)).getLast hne] =
      siftDown (pqSwap pq 0 (pq.length - 1)) 0 (pq.length - 1) :=
    List.dropLast_append_getLast hne
  have hget : pqGet (siftDown (pqSwap pq 0 (pq.length - 1)) 0 (pq.length - 1)) (pq.length - 1) =
      (siftDown (pqSwap pq 0 (pq.length - 1)) 0 (pq.length - 1)).getLast hne := by
    rw [List.getLast_eq_getElem]
    rw [pqGet_eq_getElem _ _ (by omega)]
    congr 1
    omega
  simp only [hget]
  have h4 : List.Perm
      ((siftDown (pqSwap pq 0 (pq.length - 1)) 0 (pq.length - 1)).getLast hne ::
        (siftDown (pqSwap pq 0 (pq.length - 1)) 0 (pq.length - 1)).dropLast)
      (siftDown (pqSwap pq 0 (pq.length - 1)) 0 (pq.length - 1)) := by
    have := List.perm_append_singleton
      ((siftDown (pqSwap pq 0 (pq.length - 1)) 0 (pq.length - 1)).getLast hne)
      (siftDown (pqSwap pq 0 (pq.length - 1)) 0 (pq.length - 1)).dropLast
    exact (this.symm).trans (by rw [hsplit])
  exact h4.trans h3

/-- All leaves of all trees of a forest, in order. -/
def forestLeaves (pq : List HuffmanTree) : List HuffmanLeaf :=
  (pq.map HuffmanTree.leavesOf).flatten

/-- Internal-node frequencies are the sums of their children's — true of every tree
`BuildTree` constructs. -/
def wfFreq : HuffmanTree → Prop
  | .leaf _ _ _ => True
  | .node f _ l r => f = l.freq + r.freq ∧ wfFreq l ∧ wfFreq r

theorem forestLeaves_perm {pq1 pq2 : List HuffmanTree} (h : List.Perm pq1 pq2) :
    List.Perm (forestLeaves pq1) (forestLeaves pq2) :=
  (h.map HuffmanTree.leavesOf).flatten

theorem forestLeaves_cons (t : HuffmanTree) (pq : List HuffmanTree) :
    forestLeaves (t :: pq) = t.leavesOf ++ forestLeaves pq := rfl

theorem wfFreq_sum (t : HuffmanTree) (h : wfFreq t) :
    t.freq = (t.leavesOf.map HuffmanLeaf.Frequency).sum := by
  induction t with
  | leaf f v c =>
      simp [HuffmanTree.freq, HuffmanTree.leavesOf]
  | node f v l r ihl ihr =>
      obtain ⟨hf, hl, hr⟩ := h
      simp only [HuffmanTree.freq, HuffmanTree.leavesOf, List.map_append, List.sum_append]
      rw [hf, ihl hl, ihr hr]

theorem buildLoop_leaves_perm (trees : List HuffmanTree) :
    List.Perm (forestLeaves (buildLoop trees)) (forestLeaves trees) := by
  induction trees using buildLoop.induct with
  | case1 trees hlen p1 a p2 b ih =>
      rw [buildLoop, dif_pos hlen]
      simp only [p1, a, p2, b] at *
      have hne1 : trees ≠ [] := by
        intro he
        rw [he] at hlen
        simp at hlen
      have hpop1 := heapPop_perm trees hne1
      have hne2 : (heapPop trees).2 ≠ [] := by
        have := length_heapPop trees
        intro he
        rw [he] at this
        simp at this
        omega
      have hpop2 := heapPop_perm (heapPop trees).2 hne2
      have hpush := heapPush_perm (heapPop (heapPop trees).2).2
        (HuffmanTree.node ((heapPop trees).1.freq + (heapPop (heapPop trees).2).1.freq)
          (Char.ofNat 0) (heapPop trees).1 (heapPop (heapPop trees).2).1)
      have h1 := ih.trans (forestLeaves_perm hpush)
      rw [forestLeaves_cons] at h1
      have h2 : List.Perm (forestLeaves (heapPop trees).2)
          ((heapPop (heapPop trees).2).1.leavesOf ++ forestLeaves (heapPop (heapPop trees).2).2) := by
        have := forestLeaves_perm hpop2
        rw [forestLeaves_cons] at this
        exact this.symm
      have h3 : List.Perm (forestLeaves trees)
          ((heapPop trees).1.leavesOf ++ forestLeaves (heapPop trees).2) := by
        have := forestLeaves_perm hpop1
        rw [forestLeaves_cons] at this
        exact this.symm
      have hnode : (HuffmanTree.node ((heapPop trees).1.freq + (heapPop (heapPop trees).2).1.freq)
          (Char.ofNat 0) (heapPop trees).1 (heapPop (heapPop trees).2).1).leavesOf =
          (heapPop trees).1.leavesOf ++ (heapPop (heapPop trees).2).1.leavesOf := rfl
      rw [hnode] at h1
      refine h1.trans ?_
      rw [List.append_assoc]
      exact ((List.Perm.refl _).append h2.symm).trans h3.symm
  | case2 trees hlen =>
      rw [buildLoop, dif_neg hlen]

theorem buildLoop_wfFreq (trees : List HuffmanTree) (hwf : ∀ t ∈ trees, wfFreq t) :
    ∀ t ∈ buildLoop trees, wfFreq t := by
  induction trees using buildLoop.induct with
  | case1 trees hlen p1 a p2 b ih =>
      rw [buildLoop, dif_pos hlen]
      simp only [p1, a, p2, b] at *
      have hne1 : trees ≠ [] := by
        intro he
        rw [he] at hlen
        simp at hlen
      have hpop1 := heapPop_perm trees hne1
      have hne2 : (heapPop trees).2 ≠ [] := by
        have := length_heapPop trees
        intro he
        rw [he] at this
        simp at this
        omega
      have hpop2 := heapPop_perm (heapPop trees).2 hne2
      have hwf1 : ∀ t ∈ (heapPop trees).1 :: (heapPop trees).2, wfFreq t :=
        fun t ht => hwf t (hpop1.mem_iff.mp ht)
      have hwf2 : ∀ t ∈ (heapPop (heapPop trees).2).1 :: (heapPop (heapPop trees).2).2, wfFreq t :=
        fun t ht => hwf1 t (List.mem_cons_of_mem _ (hpop2.mem_iff.mp ht))
      apply ih
      intro t ht
      have hpush := heapPush_perm (heapPop (heapPop trees).2).2
        (HuffmanTree.node ((heapPop trees).1.freq + (heapPop (heapPop trees).2).1.freq)
          (Char.ofNat 0) (heapPop trees).1 (heapPop (heapPop trees).2).1)
      rcases List.mem_cons.mp (hpush.mem_iff.mp ht) with rfl | hmem
      · exact ⟨rfl, hwf1 _ (List.mem_cons_self _ _),
          hwf2 _ (List.mem_cons_self _ _)⟩
      · exact hwf2 _ (List.mem_cons_of_mem _ hmem)
  | case2 trees hlen =>
      rw [buildLoop, dif_neg hlen]
      exact hwf

theorem length_buildLoop (trees : List HuffmanTree) (h : trees ≠ []) :
    (buildLoop trees).length = 1 := by
  induction trees using buildLoop.induct with
  | case1 trees hlen p1 a p2 b ih =>
      rw [buildLoop, dif_pos hlen]
      simp only [p1, a, p2, b] at *
      apply ih
      intro he
      have h0 := congrArg List.length he
      rw [length_heapPush, length_heapPop, length_heapPop] at h0
      simp only [List.length_nil] at h0
      omega
  | case2 trees hlen =>
      rw [buildLoop, dif_neg hlen]
      have h1 := List.length_pos.mpr h
      simp only [gt_iff_lt, not_lt] at hlen
      omega

theorem forestLeaves_map_leaf (leaves : List HuffmanLeaf) :
    forestLeaves (leaves.map fun l => HuffmanTree.leaf l.Frequency l.Value l.CharStr) = leaves := by
  induction leaves with
  | nil => rfl
  | cons l ls ih =>
      simp only [List.map_cons, forestLeaves_cons, ih, HuffmanTree.leavesOf]
      rfl

theorem BuildTree_step_perm (leaves : List HuffmanLeaf) (h : leaves ≠ []) :
    List.Perm (BuildTree leaves).leavesOf leaves ∧ wfFreq (BuildTree leaves) := by
  rw [BuildTree]
  have hne0 : (leaves.map fun l => HuffmanTree.leaf l.Frequency l.Value l.CharStr) ≠ [] := by
    simpa using h
  have hinit := heapInit_perm (leaves.map fun l => HuffmanTree.leaf l.Frequency l.Value l.CharStr)
  have hne1 : heapInit (leaves.map fun l => HuffmanTree.leaf l.Frequency l.Value l.CharStr) ≠ [] := by
    intro he
    have hl := hinit.length_eq
    rw [he] at hl
    simp only [List.length_nil] at hl
    exact hne0 (List.length_eq_zero.mp hl.symm)
  have hloopP := buildLoop_leaves_perm
    (heapInit (leaves.map fun l => HuffmanTree.leaf l.Frequency l.Value l.CharStr))
  have hlen2 := length_buildLoop _ hne1
  have hne2 : buildLoop (heapInit (leaves.map fun l =>
      HuffmanTree.leaf l.Frequency l.Value l.CharStr)) ≠ [] := by
    intro he
    rw [he] at hlen2
    simp at hlen2
  have hpop := heapPop_perm _ hne2
  have hrest : (heapPop (buildLoop (heapInit (leaves.map fun l =>
      HuffmanTree.leaf l.Frequency l.Value l.CharStr)))).2 = [] := by
    have := length_heapPop (buildLoop (heapInit (leaves.map fun l =>
      HuffmanTree.leaf l.Frequency l.Value l.CharStr)))
    rw [hlen2] at this
    exact List.length_eq_zero.mp (by omega)
  rw [hrest] at hpop
  constructor
  · have hperm1 : List.Perm (forestLeaves [((heapPop (buildLoop (heapInit (leaves.map fun l =>
        HuffmanTree.leaf l.Frequency l.Value l.CharStr)))).1)])
        (forestLeaves (buildLoop (heapInit (leaves.map fun l =>
        HuffmanTree.leaf l.Frequency l.Value l.CharStr)))) := forestLeaves_perm hpop
    rw [forestLeaves_cons] at hperm1
    simp only [forestLeaves, List.map_nil, List.flatten_nil, List.append_nil] at hperm1
    refine hperm1.trans ?_
    refine hloopP.trans ?_
    refine (forestLeaves_perm hinit).trans ?_
    rw [forestLeaves_map_leaf]
  · have hwf0 : ∀ t ∈ (leaves.map fun l => HuffmanTree.leaf l.Frequency l.Value l.CharStr),
        wfFreq t := by
      intro t ht
      rcases List.mem_map.mp ht with ⟨l, _, rfl⟩
      trivial
    have hwf1 : ∀ t ∈ heapInit (leaves.map fun l =>
        HuffmanTree.leaf l.Frequency l.Value l.CharStr), wfFreq t :=
      fun t ht => hwf0 t (hinit.mem_iff.mp ht)
    have hwf2 := buildLoop_wfFreq _ hwf1
    exact hwf2 _ (hpop.mem_iff.mp (List.mem_singleton.mpr rfl))

theorem foldl_insert_nodup (l : List Char) :
    ∀ acc : List Char, acc.Nodup →
      (l.foldl (fun acc c => if c ∈ acc then acc else acc ++ [c]) acc).Nodup := by
  induction l with
  | nil =>
      intro acc h
      exact h
  | cons c tl ih =>
      intro acc h
      rw [List.foldl_cons]
      apply ih
      by_cases hc : c ∈ acc
      · rw [if_pos hc]
        exact h
      · rw [if_neg hc]
        simp [List.nodup_append, h, hc]

theorem foldl_insert_mem (l : List Char) :
    ∀ (acc : List Char) (x : Char),
      (x ∈ l.foldl (fun acc c => if c ∈ acc then acc else acc ++ [c]) acc ↔ x ∈ acc ∨ x ∈ l) := by
  induction l with
  | nil =>
      intro acc x
      simp
  | cons c tl ih =>
      intro acc x
      rw [List.foldl_cons, ih]
      by_cases hc : c ∈ acc
      · rw [if_pos hc]
        constructor
        · rintro (hx | hx)
          · exact Or.inl hx
          · exact Or.inr (List.mem_cons_of_mem _ hx)
        · rintro (hx | hx)
          · exact Or.inl hx
          · rcases List.mem_cons.mp hx with rfl | hx
            · exact Or.inl hc
            · exact Or.inr hx
      · rw [if_neg hc]
        simp only [List.mem_append, List.mem_singleton, List.mem_cons]
        tauto

theorem firstOccurrences_nodup (s : List Char) : (firstOccurrences s).Nodup :=
  foldl_insert_nodup s [] List.nodup_nil

theorem firstOccurrences_mem (s : List Char) (x : Char) :
    x ∈ firstOccurrences s ↔ x ∈ s := by
  rw [firstOccurrences, foldl_insert_mem]
  simp

theorem sum_map_add_distrib (d : List Char) (f g : Char → Nat) :
    (d.map fun c => f c + g c).sum = (d.map f).sum + (d.map g).sum := by
  induction d with
  | nil => simp
  | cons b d' ih =>
      simp only [List.map_cons, List.sum_cons, ih]
      omega

theorem sum_map_indicator_zero (a : Char) (d : List Char) (ha : a ∉ d) :
    (d.map fun c => if a = c then 1 else 0).sum = 0 := by
  induction d with
  | nil => simp
  | cons b d' ih =>
      simp only [List.map_cons, List.sum_cons]
      rw [if_neg (by intro he; exact ha (he ▸ List.mem_cons_self b d')), ih
        (fun h => ha (List.mem_cons_of_mem _ h))]

theorem sum_map_indicator_one (a : Char) (d : List Char) (hnd : d.Nodup) (ha : a ∈ d) :
    (d.map fun c => if a = c then 1 else 0).sum = 1 := by
  induction d with
  | nil => simp at ha
  | cons b d' ih =>
      simp only [List.map_cons, List.sum_cons]
      rcases List.mem_cons.mp ha with rfl | hmem
      · rw [if_pos rfl, sum_map_indicator_zero a d' (List.nodup_cons.mp hnd).1]
      · have hab : a ≠ b := by
          intro he
          exact (List.nodup_cons.mp hnd).1 (he ▸ hmem)
        rw [if_neg hab, ih (List.nodup_cons.mp hnd).2 hmem]

theorem sum_map_count (s : List Char) :
    ∀ d : List Char, d.Nodup → (∀ c ∈ s, c ∈ d) →
      (d.map fun c => s.count c).sum = s.length := by
  induction s with
  | nil =>
      intro d _ _
      simp
  | cons a s' ih =>
      intro d hnd hcov
      have hmapeq : (d.map fun c => (a :: s').count c) =
          d.map fun c => s'.count c + if c = a then 1 else 0 := by
        apply List.map_congr_left
        intro c _
        rw [List.count_cons]
        congr 1
        by_cases h : a = c
        · rw [if_pos (by simpa using h), if_pos h.symm]
        · rw [if_neg (by simpa using h), if_neg (fun hc => h hc.symm)]
      rw [hmapeq]
      have heq2 : (d.map fun c => s'.count c + if c = a then 1 else 0).sum =
          (d.map fun c => s'.count c).sum + (d.map fun c => if c = a then 1 else 0).sum :=
        sum_map_add_distrib d _ _
      rw [heq2, ih d hnd (fun c hc => hcov c (List.mem_cons_of_mem _ hc))]
      have hind : (d.map fun c => if c = a then 1 else 0).sum = 1 := by
        have hmap2 : (d.map fun c => if c = a then 1 else 0) =
            d.map fun c => if a = c then 1 else 0 := by
          apply List.map_congr_left
          intro c _
          by_cases hca : c = a
          · rw [if_pos hca, if_pos hca.symm]
          · rw [if_neg hca, if_neg (fun h => hca h.symm)]
        rw [hmap2]
        exact sum_map_indicator_one a d hnd (hcov a (List.mem_cons_self _ _))
      rw [hind]
      simp

theorem BuildFrequencyTable_values (s : List Char) :
    (BuildFrequencyTable s).map HuffmanLeaf.Value = firstOccurrences s := by
  rw [BuildFrequencyTable, List.map_map]
  have hfun : (HuffmanLeaf.Value ∘ fun c => (⟨s.count c, c, String.singleton c⟩ : HuffmanLeaf)) =
      id := by
    funext c
    rfl
  rw [hfun, List.map_id]

theorem BuildFrequencyTable_counts (s : List Char) :
    (BuildFrequencyTable s).map HuffmanLeaf.Frequency =
      (firstOccurrences s).map fun c => s.count c := by
  rw [BuildFrequencyTable, List.map_map]
  simp

/-- **C9.** For every input string: the `BuildFrequencyTable` counts sum to the
input length, there is exactly one entry per distinct symbol (the entry symbols are
distinct and are exactly the symbols occurring in the input), and for non-empty
input the root frequency of the `BuildTree` result equals that sum. -/
theorem frequency_conservation (s : List Char) :
    ((BuildFrequencyTable s).map HuffmanLeaf.Frequency).sum = s.length ∧
    ((BuildFrequencyTable s).map HuffmanLeaf.Value).Nodup ∧
    (∀ c, c ∈ (BuildFrequencyTable s).map HuffmanLeaf.Value ↔ c ∈ s) ∧
    (s ≠ [] → (BuildTree (BuildFrequencyTable s)).freq = s.length) := by
  have hsum : ((BuildFrequencyTable s).map HuffmanLeaf.Frequency).sum = s.length := by
    rw [BuildFrequencyTable_counts]
    exact sum_map_count s (firstOccurrences s) (firstOccurrences_nodup s)
      (fun c hc => (firstOccurrences_mem s c).mpr hc)
  refine ⟨hsum, ?_, ?_, ?_⟩
  · rw [BuildFrequencyTable_values]
    exact firstOccurrences_nodup s
  · intro c
    rw [BuildFrequencyTable_values]
    exact firstOccurrences_mem s c
  · intro hne
    have hftne : BuildFrequencyTable s ≠ [] := by
      rcases List.exists_mem_of_ne_nil s hne with ⟨c, hc⟩
      intro he
      have := (firstOccurrences_mem s c).mpr hc
      rw [BuildFrequencyTable] at he
      rcases List.map_eq_nil_iff.mp he with he2
      rw [he2] at this
      simp at this
    obtain ⟨hperm, hwf⟩ := BuildTree_step_perm (BuildFrequencyTable s) hftne
    rw [wfFreq_sum _ hwf]
    rw [← hsum]
    exact (hperm.map HuffmanLeaf.Frequency).sum_eq

/-- Witness for C9's non-emptiness implication at `"ab"`. -/
theorem frequency_conservation_witness :
    (['a', 'b'] : List Char) ≠ [] ∧
    (BuildTree (BuildFrequencyTable ['a', 'b'])).freq = (['a', 'b'] : List Char).length :=
  ⟨by decide, (frequency_conservation ['a', 'b']).2.2.2 (by decide)⟩

theorem listPfx_refl (a : List Char) : listPfx a a = true := by
  induction a with
  | nil => rfl
  | cons x xs ih => simp [listPfx, ih]

theorem listPfx_append_same (w : List Char) (a b : List Char) :
    listPfx (w ++ a) (w ++ b) = listPfx a b := by
  induction w with
  | nil => rfl
  | cons x xs ih => simp [listPfx, ih]

theorem listPfx_cons_ne {x y : Char} (h : x ≠ y) (a b : List Char) :
    listPfx (x :: a) (y :: b) = false := by
  simp [listPfx, h]

theorem buildEncoding_extends (t : HuffmanTree) :
    ∀ pfx p, p ∈ buildEncoding t pfx → ∃ suffix, p.2 = pfx ++ suffix := by
  induction t with
  | leaf f v c =>
      intro pfx p hp
      rcases List.mem_singleton.mp hp with rfl
      exact ⟨[], by simp⟩
  | node f v l r ihl ihr =>
      intro pfx p hp
      rcases List.mem_append.mp hp with hl | hr
      · rcases ihl _ p hl with ⟨suffix, hs⟩
        exact ⟨'0' :: suffix, by rw [hs]; simp⟩
      · rcases ihr _ p hr with ⟨suffix, hs⟩
        exact ⟨'1' :: suffix, by rw [hs]; simp⟩

theorem buildEncoding_pairwise (t : HuffmanTree) :
    ∀ pfx p q, p ∈ buildEncoding t pfx → q ∈ buildEncoding t pfx → p.1 ≠ q.1 →
      listPfx p.2 q.2 = false := by
  induction t with
  | leaf f v c =>
      intro pfx p q hp hq hne
      rcases List.mem_singleton.mp hp with rfl
      rcases List.mem_singleton.mp hq with rfl
      exact absurd rfl hne
  | node f v l r ihl ihr =>
      intro pfx p q hp hq hne
      rcases List.mem_append.mp hp with hpl | hpr <;>
        rcases List.mem_append.mp hq with hql | hqr
      · exact ihl _ p q hpl hql hne
      · rcases buildEncoding_extends l _ p hpl with ⟨s1, h1⟩
        rcases buildEncoding_extends r _ q hqr with ⟨s2, h2⟩
        rw [h1, h2, List.append_assoc, List.append_assoc, List.singleton_append,
          List.singleton_append, listPfx_append_same]
        exact listPfx_cons_ne (by decide) s1 s2
      · rcases buildEncoding_extends r _ p hpr with ⟨s1, h1⟩
        rcases buildEncoding_extends l _ q hql with ⟨s2, h2⟩
        rw [h1, h2, List.append_assoc, List.append_assoc, List.singleton_append,
          List.singleton_append, listPfx_append_same]
        exact listPfx_cons_ne (by decide) s1 s2
      · exact ihr _ p q hpr hqr hne

theorem mapLookup_mem (m : List (Char × List Char)) (c : Char)
    (h : c ∈ m.map Prod.fst) : (c, mapLookup m c) ∈ m := by
  have hex : ∃ x ∈ m.reverse, (x.1 == c) = true := by
    rcases List.mem_map.mp h with ⟨p, hp, rfl⟩
    exact ⟨p, List.mem_reverse.mpr hp, by simp⟩
  have hsome : (m.reverse.find? fun p => p.1 == c).isSome := List.find?_isSome.mpr hex
  rcases Option.isSome_iff_exists.mp hsome with ⟨q, hq⟩
  have hqp := List.find?_some hq
  have hqm : q ∈ m.reverse := List.mem_of_find?_eq_some hq
  have hq1 : q.1 = c := by simpa using hqp
  rw [mapLookup, hq]
  have : (c, q.2) = q := by
    rw [← hq1]
  rw [this]
  exact List.mem_reverse.mp hqm

/-- **C2.** For every Huffman tree built by `BuildTree` from at least 2 frequency
entries with distinct symbols, the code table from `buildEncoding` is prefix-free:
for two distinct symbols in the table with different codes, neither code is a
prefix of the other (`listPfx` both ways is `false`). -/
theorem huffman_table_codes_not_mutual_pfx (leaves : List HuffmanLeaf)
    (hlen : 2 ≤ leaves.length) (hnd : (leaves.map HuffmanLeaf.Value).Nodup)
    (c1 c2 : Char) (hne : c1 ≠ c2)
    (h1 : c1 ∈ (buildEncoding (BuildTree leaves) []).map Prod.fst)
    (h2 : c2 ∈ (buildEncoding (BuildTree leaves) []).map Prod.fst)
    (hcode : mapLookup (buildEncoding (BuildTree leaves) []) c1 ≠
      mapLookup (buildEncoding (BuildTree leaves) []) c2) :
    listPfx (mapLookup (buildEncoding (BuildTree leaves) []) c1)
        (mapLookup (buildEncoding (BuildTree leaves) []) c2) = false ∧
    listPfx (mapLookup (buildEncoding (BuildTree leaves) []) c2)
        (mapLookup (buildEncoding (BuildTree leaves) []) c1) = false := by
  have e1 := mapLookup_mem _ c1 h1
  have e2 := mapLookup_mem _ c2 h2
  exact ⟨buildEncoding_pairwise (BuildTree leaves) [] _ _ e1 e2 hne,
    buildEncoding_pairwise (BuildTree leaves) [] _ _ e2 e1 (fun h => hne h.symm)⟩

/-- Witness for C2 on the two-leaf table `{a ↦ "0", b ↦ "1"}`. -/
theorem huffman_table_codes_not_mutual_pfx_witness :
    (('a' : Char) ≠ 'b' ∧
      2 ≤ ([⟨1, 'a', "a"⟩, ⟨2, 'b', "b"⟩] : List HuffmanLeaf).length) ∧
    (listPfx (mapLookup (buildEncoding (BuildTree [⟨1, 'a', "a"⟩, ⟨2, 'b', "b"⟩]) []) 'a')
        (mapLookup (buildEncoding (BuildTree [⟨1, 'a', "a"⟩, ⟨2, 'b', "b"⟩]) []) 'b') = false ∧
      listPfx (mapLookup (buildEncoding (BuildTree [⟨1, 'a', "a"⟩, ⟨2, 'b', "b"⟩]) []) 'b')
        (mapLookup (buildEncoding (BuildTree [⟨1, 'a', "a"⟩, ⟨2, 'b', "b"⟩]) []) 'a') = false) :=
  ⟨⟨by decide, by decide⟩,
    huffman_table_codes_not_mutual_pfx [⟨1, 'a', "a"⟩, ⟨2, 'b', "b"⟩] (by decide) (by decide)
      'a' 'b' (by decide)
      (by simp [BuildTree, heapInit, heapInitLoop, buildLoop, heapPop, heapPush,
        siftDown, siftUp, pqSwap, pqGet, pqLess, HuffmanTree.freq, buildEncoding])
      (by simp [BuildTree, heapInit, heapInitLoop, buildLoop, heapPop, heapPush,
        siftDown, siftUp, pqSwap, pqGet, pqLess, HuffmanTree.freq, buildEncoding])
      (by simp [BuildTree, heapInit, heapInitLoop, buildLoop, heapPop, heapPush,
        siftDown, siftUp, pqSwap, pqGet, pqLess, HuffmanTree.freq, buildEncoding,
        mapLookup])⟩

theorem listPfx_take (a : List Char) : ∀ k, listPfx (a.take k) a = true := by
  induction a with
  | nil =>
      intro k
      simp [listPfx]
  | cons x xs ih =>
      intro k
      match k with
      | 0 => rfl
      | k + 1 =>
          simp only [List.take_succ_cons, listPfx, ih k, beq_self_eq_true]
          rfl

theorem mapAssoc_unique (m : List (Char × List Char)) :
    (m.map Prod.fst).Nodup → ∀ {c v w}, (c, v) ∈ m → (c, w) ∈ m → v = w := by
  induction m with
  | nil =>
      intro _ c v w hv
      simp at hv
  | cons p m' ih =>
      intro hnd c v w hv hw
      rw [List.map_cons, List.nodup_cons] at hnd
      rcases List.mem_cons.mp hv with rfl | hv' <;> rcases List.mem_cons.mp hw with he | hw'
      · exact (Prod.mk.injEq _ _ _ _ |>.mp he.symm).2
      · exact absurd (List.mem_map.mpr ⟨(c, w), hw', rfl⟩) hnd.1
      · rcases he with rfl
        exact absurd (List.mem_map.mpr ⟨(c, v), hv', rfl⟩) hnd.1
      · exact ih hnd.2 hv' hw'

theorem buildEncoding_fst (t : HuffmanTree) :
    ∀ pfx, (buildEncoding t pfx).map Prod.fst = t.leavesOf.map HuffmanLeaf.Value := by
  induction t with
  | leaf f v c =>
      intro pfx
      rfl
  | node f v l r ihl ihr =>
      intro pfx
      simp only [buildEncoding, HuffmanTree.leavesOf, List.map_append, ihl, ihr]

theorem buildEncoding_node_code_long {f : Nat} {v : Char} {l r : HuffmanTree} :
    ∀ pfx p, p ∈ buildEncoding (HuffmanTree.node f v l r) pfx → pfx.length < p.2.length := by
  intro pfx p hp
  rcases List.mem_append.mp hp with hl | hr
  · rcases buildEncoding_extends l _ p hl with ⟨s, hs⟩
    rw [hs]
    simp
  · rcases buildEncoding_extends r _ p hr with ⟨s, hs⟩
    rw [hs]
    simp

theorem applyHuffmanEncoding_eq_bind (m : List (Char × List Char)) (s : List Char) :
    applyHuffmanEncoding s m = s.flatMap fun c => mapLookup m c := by
  rw [applyHuffmanEncoding]
  suffices h : ∀ acc : List Char,
      s.foldl (fun acc c => acc ++ mapLookup m c) acc = acc ++ s.flatMap fun c => mapLookup m c by
    simpa using h []
  induction s with
  | nil =>
      intro acc
      simp
  | cons c s' ih =>
      intro acc
      rw [List.foldl_cons, ih, List.flatMap_cons, List.append_assoc]

theorem revLookup_eq_some (m : List (Char × List Char)) (c : Char) (v : List Char)
    (hmem : (c, v) ∈ m) (howner : ∀ q ∈ m, q.2 = v → q.1 = c) :
    revLookup (reverseMap m) v = some c := by
  have hex : ∃ x ∈ (reverseMap m).reverse, (x.1 == v) = true := by
    refine ⟨(v, c), ?_, by simp⟩
    rw [List.mem_reverse]
    exact List.mem_map.mpr ⟨(c, v), hmem, rfl⟩
  have hsome := List.find?_isSome.mpr hex
  rcases Option.isSome_iff_exists.mp hsome with ⟨q, hq⟩
  have hqp := List.find?_some hq
  have hqm := List.mem_of_find?_eq_some hq
  rw [List.mem_reverse] at hqm
  rcases List.mem_map.mp hqm with ⟨p, hpm, rfl⟩
  have hq1 : p.2 = v := by simpa using hqp
  rw [revLookup, hq]
  rw [howner p hpm hq1]

theorem revLookup_eq_none (rev : List (List Char × Char)) (code : List Char)
    (h : ∀ q ∈ rev, q.1 ≠ code) : revLookup rev code = none := by
  rw [revLookup]
  have hnone : rev.reverse.find? (fun p => p.1 == code) = none := by
    rw [List.find?_eq_none]
    intro x hx
    simp only [beq_iff_eq]
    exact h x (List.mem_reverse.mp hx)
  rw [hnone]

theorem decodeLoop_cons (rev : List (List Char × Char)) (acc code : List Char) (c : Char)
    (rest : List Char) :
    decodeLoop rev acc code (c :: rest) =
      match revLookup rev (code ++ [c]) with
      | some val => decodeLoop rev (acc ++ [val]) [] rest
      | none => decodeLoop rev acc (code ++ [c]) rest := rfl

theorem decodeLoop_code_steps (rev : List (List Char × Char)) (code : List Char) (c : Char)
    (hmatch : revLookup rev code = some c)
    (hnomatch : ∀ k, 0 < k → k < code.length → revLookup rev (code.take k) = none) :
    ∀ (suf pre : List Char), pre ++ suf = code → suf ≠ [] →
      ∀ acc rest, decodeLoop rev acc pre (suf ++ rest) = decodeLoop rev (acc ++ [c]) [] rest := by
  intro suf
  induction suf with
  | nil =>
      intro pre _ hne
      exact absurd rfl hne
  | cons b suf' ih =>
      intro pre hcode _ acc rest
      match suf' with
      | [] =>
          rw [List.singleton_append, decodeLoop_cons, hcode, hmatch]
      | b2 :: suf'' =>
          rw [List.cons_append, decodeLoop_cons]
          have hlen : pre.length + 1 < code.length := by
            rw [← hcode]
            simp only [List.length_append, List.length_cons]
            omega
          have htake : code.take (pre.length + 1) = pre ++ [b] := by
            rw [← hcode]
            rw [List.take_append_eq_append_take]
            simp
          have hnone := hnomatch (pre.length + 1) (by omega) hlen
          rw [htake] at hnone
          rw [hnone]
          exact ih (pre ++ [b]) (by rw [List.append_assoc]; exact hcode) (by simp) acc rest

/-- A decodable code table: distinct symbols, non-empty codes, and mutually
non-prefix codes across distinct symbols. -/
def goodTable (m : List (Char × List Char)) : Prop :=
  (m.map Prod.fst).Nodup ∧
  (∀ p ∈ m, p.2 ≠ []) ∧
  (∀ p ∈ m, ∀ q ∈ m, p.1 ≠ q.1 → listPfx p.2 q.2 = false)

theorem goodTable_revLookup_code (m : List (Char × List Char)) (hm : goodTable m)
    {c : Char} (hc : c ∈ m.map Prod.fst) :
    revLookup (reverseMap m) (mapLookup m c) = some c := by
  obtain ⟨hnd, hne, hpw⟩ := hm
  have hmem := mapLookup_mem m c hc
  apply revLookup_eq_some m c _ hmem
  intro q hq hq2
  by_contra hqc
  have hfalse := hpw q hq (c, mapLookup m c) hmem hqc
  rw [hq2, listPfx_refl] at hfalse
  exact Bool.true_eq_false.mp hfalse

theorem goodTable_revLookup_take (m : List (Char × List Char)) (hm : goodTable m)
    {c : Char} (hc : c ∈ m.map Prod.fst)
    {k : Nat} (hk0 : 0 < k) (hklen : k < (mapLookup m c).length) :
    revLookup (reverseMap m) ((mapLookup m c).take k) = none := by
  obtain ⟨hnd, hne, hpw⟩ := hm
  have hmem := mapLookup_mem m c hc
  apply revLookup_eq_none
  intro q hq
  rcases List.mem_map.mp hq with ⟨p, hpm, rfl⟩
  intro heq
  simp only at heq
  by_cases hpc : p.1 = c
  · have hcp2 : (c, p.2) ∈ m := by
      rw [← hpc]
      have hpeta : (p.1, p.2) = p := rfl
      rw [hpeta]
      exact hpm
    have hp2 : p.2 = mapLookup m c := mapAssoc_unique m hnd hcp2 hmem
    rw [hp2] at heq
    have hlen := congrArg List.length heq
    rw [List.length_take] at hlen
    omega
  · have hfalse := hpw p hpm (c, mapLookup m c) hmem hpc
    rw [heq, listPfx_take] at hfalse
    exact Bool.true_eq_false.mp hfalse

theorem decodeLoop_encode (m : List (Char × List Char)) (hm : goodTable m) :
    ∀ (s : List Char), (∀ c ∈ s, c ∈ m.map Prod.fst) →
      ∀ acc, decodeLoop (reverseMap m) acc [] (applyHuffmanEncoding s m) = (acc ++ s, []) := by
  intro s
  induction s with
  | nil =>
      intro _ acc
      simp [applyHuffmanEncoding, decodeLoop]
  | cons c s' ih =>
      intro hcov acc
      have hc := hcov c (List.mem_cons_self _ _)
      have hcode_ne := hm.2.1 _ (mapLookup_mem m c hc)
      have hstream : applyHuffmanEncoding (c :: s') m =
          mapLookup m c ++ applyHuffmanEncoding s' m := by
        rw [applyHuffmanEncoding_eq_bind, applyHuffmanEncoding_eq_bind, List.flatMap_cons]
      rw [hstream]
      have hstep := decodeLoop_code_steps (reverseMap m) (mapLookup m c) c
        (goodTable_revLookup_code m hm hc)
        (fun k hk0 hkl => goodTable_revLookup_take m hm hc hk0 hkl)
        (mapLookup m c) [] rfl hcode_ne acc (applyHuffmanEncoding s' m)
      rw [hstep]
      rw [ih (fun x hx => hcov x (List.mem_cons_of_mem _ hx)) (acc ++ [c])]
      rw [List.append_assoc, List.singleton_append]

theorem BuildFrequencyTable_ne_nil (s : List Char) (hs : s ≠ []) :
    BuildFrequencyTable s ≠ [] := by
  rcases List.exists_mem_of_ne_nil s hs with ⟨c, hc⟩
  intro he
  have hmem := (firstOccurrences_mem s c).mpr hc
  rcases List.map_eq_nil_iff.mp he with he2
  rw [he2] at hmem
  simp at hmem

theorem leavesOf_two_node (t : HuffmanTree) (h : 2 ≤ t.leavesOf.length) :
    ∃ f v l r, t = HuffmanTree.node f v l r := by
  match t with
  | .leaf f v c =>
      simp [HuffmanTree.leavesOf] at h
  | .node f v l r =>
      exact ⟨f, v, l, r, rfl⟩

/-- **C1.** For every non-empty input with at least two distinct symbols, decoding
the Huffman encoding of the input with the table built from its own frequency
distribution returns the input exactly. -/
theorem huffman_roundtrip (s : List Char) (hs : s ≠ [])
    (h2 : 2 ≤ (firstOccurrences s).length) :
    applyHuffmanDecoding
      (applyHuffmanEncoding s (buildEncoding (BuildTree (BuildFrequencyTable s)) []))
      (buildEncoding (BuildTree (BuildFrequencyTable s)) []) = s := by
  have hftne := BuildFrequencyTable_ne_nil s hs
  obtain ⟨hperm, _⟩ := BuildTree_step_perm (BuildFrequencyTable s) hftne
  have hfst := buildEncoding_fst (BuildTree (BuildFrequencyTable s)) []
  have hsymperm : List.Perm ((buildEncoding (BuildTree (BuildFrequencyTable s)) []).map Prod.fst)
      (firstOccurrences s) := by
    rw [hfst, ← BuildFrequencyTable_values s]
    exact hperm.map HuffmanLeaf.Value
  have hnd : ((buildEncoding (BuildTree (BuildFrequencyTable s)) []).map Prod.fst).Nodup :=
    hsymperm.nodup_iff.mpr (firstOccurrences_nodup s)
  have hlen2 : 2 ≤ (BuildTree (BuildFrequencyTable s)).leavesOf.length := by
    have hl1 := hperm.length_eq
    have hl2 : (BuildFrequencyTable s).length = (firstOccurrences s).length := by
      rw [BuildFrequencyTable, List.length_map]
    omega
  obtain ⟨f, v, l, r, hT⟩ := leavesOf_two_node _ hlen2
  have hgood : goodTable (buildEncoding (BuildTree (BuildFrequencyTable s)) []) := by
    refine ⟨hnd, ?_, ?_⟩
    · intro p hp
      have := buildEncoding_node_code_long (f := f) (v := v) (l := l) (r := r) [] p (hT ▸ hp)
      intro he
      rw [he] at this
      simp at this
    · intro p hp q hq hne
      exact buildEncoding_pairwise _ [] p q hp hq hne
  have hcov : ∀ c ∈ s, c ∈ (buildEncoding (BuildTree (BuildFrequencyTable s)) []).map Prod.fst := by
    intro c hc
    exact hsymperm.mem_iff.mpr ((firstOccurrences_mem s c).mpr hc)
  have hdec := decodeLoop_encode _ hgood s hcov []
  rw [applyHuffmanDecoding, hdec]
  simp

/-- Witness for C1 at the input `"ab"`. -/
theorem huffman_roundtrip_witness :
    ((['a', 'b'] : List Char) ≠ [] ∧ 2 ≤ (firstOccurrences ['a', 'b']).length) ∧
    applyHuffmanDecoding
      (applyHuffmanEncoding ['a', 'b']
        (buildEncoding (BuildTree (BuildFrequencyTable ['a', 'b'])) []))
      (buildEncoding (BuildTree (BuildFrequencyTable ['a', 'b'])) []) = ['a', 'b'] :=
  ⟨⟨by decide, by decide⟩, huffman_roundtrip ['a', 'b'] (by decide) (by decide)⟩
